import Mathlib

/-!
# Verification of the healthcare master-dataset merger

Shallow embedding of the entity-resolution core of `master_merger.py`
(classes `MasterMerger`, `SpatialMatcher` and the helper functions), and
proofs of the specified properties of the match resolver, merge engine,
orchestrator pass, validation and export stages.

Modelling conventions:
* pandas `NaN` / missing cells are modelled with `Option`; `none` is NaN.
* numeric scores and distances are modelled with `ℚ` (the Python code uses
  IEEE doubles; every comparison in the code is against a small constant,
  so the embedding is exact up to float rounding at threshold boundaries).
* the two external libraries used by the matcher are modelled as follows:
  `rapidfuzz.fuzz.token_sort_ratio` is implemented concretely below
  (`fuzzTokenSort`, sorted-token normalized indel similarity, the
  documented algorithm of rapidfuzz), while theorems about the resolver
  are additionally stated for an arbitrary scorer `fz` so that they do not
  depend on that implementation; `sklearn` BallTree radius queries and
  `haversine_km` (trigonometric) are abstracted as function parameters
  (`query`, `dist`) of the resolver, exactly at the call boundary of the
  source.
* Python strings are modelled as `String`; character-level operations work
  on `String.data` (`List Char`).
-/

set_option maxRecDepth 16000

namespace MasterMerge

/-! ## Python string primitives -/

/-- Characters matched by Python's `\s` (and stripped by `str.strip()`):
ASCII whitespace plus the Unicode whitespace code points. -/
def isPySpace (c : Char) : Bool :=
  c = ' ' || c = '\t' || c = '\n' || c = '\r' || c.toNat = 0x0b || c.toNat = 0x0c
    || (0x1c ≤ c.toNat && c.toNat ≤ 0x1f) || c.toNat = 0x85 || c.toNat = 0xa0
    || c.toNat = 0x1680 || (0x2000 ≤ c.toNat && c.toNat ≤ 0x200a)
    || c.toNat = 0x2028 || c.toNat = 0x2029 || c.toNat = 0x202f
    || c.toNat = 0x205f || c.toNat = 0x3000

/-- `str.strip()`: drop leading and trailing whitespace. -/
def pyStrip (l : List Char) : List Char :=
  ((l.dropWhile isPySpace).reverse.dropWhile isPySpace).reverse

/-- `str.split()` with no argument: split on whitespace runs, dropping
empty tokens. -/
def splitWS (l : List Char) : List (List Char) :=
  (l.splitOnP isPySpace).filter (fun t => t ≠ [])

/-- Join tokens with single spaces (`" ".join`). -/
def joinSpace (ts : List (List Char)) : List Char :=
  (ts.intersperse [' ']).flatten

/-- `re.sub(r"\s+", " ", s).strip()`: collapse whitespace runs to single
spaces and strip the ends. -/
def collapseWS (l : List Char) : List Char :=
  joinSpace (splitWS l)

/-- Leftmost non-overlapping occurrence test: Python `pat in s`. -/
def containsSeq (pat : List Char) : List Char → Bool
  | [] => pat.isEmpty
  | c :: rest => pat.isPrefixOf (c :: rest) || containsSeq pat rest

/-- Python `s.replace(pat, "")` for a non-empty pattern: delete the
leftmost non-overlapping occurrences. -/
def replAll (pat : List Char) : List Char → List Char
  | [] => []
  | c :: rest =>
    if h : pat ≠ [] ∧ pat.isPrefixOf (c :: rest) then
      replAll pat ((c :: rest).drop pat.length)
    else
      c :: replAll pat rest
termination_by l => l.length
decreasing_by
  · simp only [List.length_drop, List.length_cons]
    have hlen : 1 ≤ pat.length := by
      cases pat with
      | nil => exact absurd rfl h.1
      | cons x xs => simp
    omega
  · simp

/-- Strict lexicographic order on character lists (Python `<` on `str`,
by code point). -/
def ltChars : List Char → List Char → Bool
  | [], [] => false
  | [], _ :: _ => true
  | _ :: _, [] => false
  | a :: as', b :: bs' => if a < b then true else if b < a then false else ltChars as' bs'

/-- Non-strict lexicographic order on character lists. -/
def leChars (a b : List Char) : Bool := !ltChars b a

/-- Python `sorted` on a list of strings-as-char-lists. -/
def sortChars (l : List (List Char)) : List (List Char) :=
  List.insertionSort (fun a b => leChars a b = true) l

/-- Split a char list on the pipe character (Python `s.split("|")`). -/
def splitPipe : List Char → List (List Char)
  | [] => [[]]
  | c :: cs =>
    match splitPipe cs with
    | [] => [[c]]
    | h :: t => if c = '|' then [] :: h :: t else (c :: h) :: t

/-- Join char lists with pipes (Python `"|".join`). -/
def joinPipe (ts : List (List Char)) : List Char :=
  (ts.intersperse ['|']).flatten

/-- Python `s.strip("|")`: drop leading and trailing pipe characters. -/
def stripPipe (l : List Char) : List Char :=
  ((l.dropWhile (· = '|')).reverse.dropWhile (· = '|')).reverse

/-! ## The fuzzy scorer (model of `rapidfuzz.fuzz.token_sort_ratio`) -/

/-- One row update of the longest-common-subsequence dynamic program.
`pj` is `prev[j]`, `cj` is `cur[j]`; produces `cur[j+1..]`. -/
def lcsStep (ca : Char) : List Char → List Nat → Nat → Nat → List Nat
  | [], _, _, _ => []
  | _ :: _, [], _, _ => []
  | cb :: bs, pj1 :: ps, pj, cj =>
    let c := if ca = cb then pj + 1 else max cj pj1
    c :: lcsStep ca bs ps pj1 c

/-- Advance the LCS row for one character of the first string. -/
def lcsRow (ca : Char) (b : List Char) (prev : List Nat) : List Nat :=
  match prev with
  | [] => []
  | p0 :: ptail => 0 :: lcsStep ca b ptail p0 0

/-- Length of a longest common subsequence of two character lists. -/
def lcsLen (a b : List Char) : Nat :=
  (a.foldl (fun prev ca => lcsRow ca b prev) (List.replicate (b.length + 1) 0)).getLastD 0

/-- Normalized indel similarity (`rapidfuzz.fuzz.ratio`): `200·LCS/(|a|+|b|)`,
with the rapidfuzz convention that two empty strings score 100. -/
def indelSim (a b : List Char) : ℚ :=
  if a.length + b.length = 0 then 100
  else (200 * lcsLen a b : ℚ) / (a.length + b.length)

/-- Model of `rapidfuzz.fuzz.token_sort_ratio`: split both strings on
whitespace, sort the tokens, join with single spaces, and take the
normalized indel similarity. -/
def fuzzTokenSort (a b : String) : ℚ :=
  indelSim (joinSpace (sortChars (splitWS a.data)))
           (joinSpace (sortChars (splitWS b.data)))

/-! ## Constants of `master_merger.py` -/

/-- `TIGHT_RADIUS_KM = 0.1` (100 m radius for generic names). -/
def TIGHT_RADIUS_KM : ℚ := 1 / 10

/-- `NAME_SCORE_HIGH = 85`. -/
def NAME_SCORE_HIGH : ℚ := 85

/-- `NAME_SCORE_MEDIUM = 70`. -/
def NAME_SCORE_MEDIUM : ℚ := 70

/-- `NAME_SCORE_GENERIC = 95`. -/
def NAME_SCORE_GENERIC : ℚ := 95

/-- `NAME_SCORE_NO_GEO = 90`. -/
def NAME_SCORE_NO_GEO : ℚ := 90

/-- The `GENERIC_NAMES` set. -/
def GENERIC_NAMES : List String :=
  ["HOSPITAL", "PHARMACY", "CLINIC", "DISPENSARY",
   "PRIMARY HEALTH CENTRE", "PRIMARY HEALTH CENTER",
   "COMMUNITY HEALTH CENTRE", "COMMUNITY HEALTH CENTER",
   "SUB HEALTH CENTER", "SUB HEALTH CENTRE", "SUB CENTRE",
   "HEALTH AND WELLNESS CENTER", "HEALTH AND WELLNESS CENTRE",
   "DENTAL CLINIC", "MEDICAL STORE", "HEALTH CENTER",
   "HEALTH CENTRE", "NURSING HOME"]

/-- `is_generic_name`: membership in `GENERIC_NAMES`. -/
def is_generic_name (cleanName : String) : Bool :=
  GENERIC_NAMES.contains cleanName

/-- The noise substrings removed by `clean_facility_name`, in source
order. -/
def NOISE_TOKENS : List (List Char) :=
  ["PVT".data, "LTD".data, "LIMITED".data, "PRIVATE".data, "A UNIT OF".data]

/-! ## `clean_facility_name` -/

/-- A character kept by the regex `[^A-Z0-9\s]` substitution. -/
def isKeepChar (c : Char) : Bool :=
  ('A' ≤ c && c ≤ 'Z') || ('0' ≤ c && c ≤ '9')

/-- ASCII uppercasing, the fragment of `str.upper()` relevant after the
regex filter (Python's `upper` is Unicode-aware; all non-kept characters
are replaced by a space two steps later regardless). -/
def upChar (c : Char) : Char :=
  if 'a' ≤ c && c ≤ 'z' then Char.ofNat (c.toNat - 32) else c

/-- `clean_facility_name` on character lists, parameterized by the
external `unidecode` transliteration `u` (identity on ASCII). Follows the
source line by line: upper+strip, unidecode, punctuation to spaces,
whitespace collapse, noise removal, final collapse. -/
def cleanChars (u : List Char → List Char) (s : List Char) : List Char :=
  let n1 := pyStrip (s.map upChar)
  let n2 := u n1
  let n3 := n2.map (fun c => if isKeepChar c || isPySpace c then c else ' ')
  let n4 := collapseWS n3
  let n5 := NOISE_TOKENS.foldl (fun acc p => replAll p acc) n4
  collapseWS n5

/-- `clean_facility_name` on strings (the `pd.isna` branch returns `""`
and is outside the string domain). -/
def clean_facility_name (u : List Char → List Char) (s : String) : String :=
  String.mk (cleanChars u s.data)

/-! ## `token_overlap` -/

/-- `token_overlap`: Jaccard similarity of the whitespace-token sets of
two cleaned names; `0` when either token set is empty. -/
def token_overlap (a b : String) : ℚ :=
  let ta := (splitWS a.data).dedup
  let tb := (splitWS b.data).dedup
  if ta.isEmpty || tb.isEmpty then 0
  else
    let inter := (ta.filter (fun t => t ∈ tb)).length
    let uni := ta.length + (tb.filter (fun t => t ∉ ta)).length
    (inter : ℚ) / (uni : ℚ)

/-! ## Data model: unified rows

One structure serves both incoming `SourceRecord`s and `MasterRecord`s,
mirroring the unified dataframe schema: master rows and incoming rows are
the same kind of row in the source (unmatched incoming rows are appended
to the master verbatim). `Option` fields model pandas NaN / missing
columns. The per-specialty indicator columns (`SPECIALTY_EMP_COLS ++
SPECIALTY_UPG_COLS`) are modelled positionally by the `indicators` list,
and the boolean per-source flag columns by the set `flags` of column
names whose value is `True`. -/
structure Row where
  facility_name : String := ""
  facility_name_clean : String := ""
  state : String := ""
  district : String := ""
  latitude : Option ℚ := none
  longitude : Option ℚ := none
  facility_type : Option String := none
  address : Option String := none
  pincode : Option String := none
  phone : Option String := none
  email : Option String := none
  num_beds : Option String := none
  abdm_enabled : Option String := none
  is_24x7 : Option String := none
  facility_subtype : Option String := none
  ownership : Option String := none
  specialties : Option String := none
  source_id : Option String := none
  source_ids : Option String := none
  source_datasets : Option String := none
  flags : List String := []
  indicators : List (Option ℚ) := []
deriving Repr, DecidableEq

/-- The all-empty row, used as the (unreachable) out-of-bounds default of
positional master access. -/
def defaultRow : Row := {}

instance : Inhabited Row := ⟨defaultRow⟩

/-- `self.master.at[base_idx, ...]`: positional access into the master
table. -/
def getRow (master : List Row) (i : Nat) : Row :=
  master.getD i defaultRow

/-! ## MatchResolver: `_find_best_match` (geo-available path) -/

/-- Python truthiness of a facility-type cell: `NaN` is truthy, the empty
string is falsy. -/
def ftypeTruthy : Option String → Bool
  | none => true
  | some s => s ≠ ""

/-- Python `==` on facility-type cells: `NaN` compares unequal to
everything, including itself. -/
def ftypeEq : Option String → Option String → Bool
  | some a, some b => a = b
  | _, _ => false

/-- The per-candidate decision rule of `_find_best_match` (lines 719-730):
generic names require distance ≤ 100 m and score ≥ 95; otherwise score
≥ 85 matches outright; otherwise score ≥ 70 matches only with equal truthy
facility types. -/
def matchDecision (inc base : Row) (score dist : ℚ) : Bool :=
  if is_generic_name inc.facility_name_clean
      || is_generic_name base.facility_name_clean then
    decide (dist ≤ TIGHT_RADIUS_KM) && decide (NAME_SCORE_GENERIC ≤ score)
  else if NAME_SCORE_HIGH ≤ score then true
  else if NAME_SCORE_MEDIUM ≤ score then
    ftypeTruthy inc.facility_type && ftypeTruthy base.facility_type
      && ftypeEq inc.facility_type base.facility_type
  else false

/-- `dist < best_dist` where `none` is the initial `float("inf")`. -/
def distLt (d : ℚ) : Option ℚ → Bool
  | none => true
  | some b => decide (d < b)

/-- One iteration of the candidate loop of `_find_best_match`: skip empty
base names and candidates below the 0.2 token-overlap prefilter, then
score, measure, decide, and keep the best by (score, then distance). The
accumulator is `(best_idx, best_score, best_dist)`. -/
def fbmStep (fz : String → String → ℚ) (dist : Row → Row → ℚ)
    (master : List Row) (row : Row)
    (acc : Option Nat × ℚ × Option ℚ) (j : Nat) : Option Nat × ℚ × Option ℚ :=
  let base := getRow master j
  if base.facility_name_clean = "" then acc
  else if token_overlap row.facility_name_clean base.facility_name_clean < 2/10 then acc
  else
    let score := fz row.facility_name_clean base.facility_name_clean
    let d := dist row base
    if matchDecision row base score d
        && (decide (acc.2.1 < score) || (decide (score = acc.2.1) && distLt d acc.2.2)) then
      (some j, score, some d)
    else acc

/-- The candidate loop of `_find_best_match`. -/
def fbmLoop (fz : String → String → ℚ) (dist : Row → Row → ℚ)
    (master : List Row) (row : Row) :
    List Nat → Option Nat × ℚ × Option ℚ → Option Nat × ℚ × Option ℚ
  | [], acc => acc
  | j :: js, acc => fbmLoop fz dist master row js (fbmStep fz dist master row acc j)

/-- `_find_best_match` without the sample-logging side channel: `None` on
an empty incoming cleaned name, else the loop's best index. `fz` models
`rapidfuzz.fuzz.token_sort_ratio` and `dist` models `haversine_km` on the
two rows' coordinates. -/
def find_best_match (fz : String → String → ℚ) (dist : Row → Row → ℚ)
    (master : List Row) (row : Row) (cands : List Nat) : Option Nat :=
  if row.facility_name_clean = "" then none
  else (fbmLoop fz dist master row cands (none, 0, none)).1

/-- One entry of the `sample_matches` audit artifact. -/
structure SampleEntry where
  incoming_name : String
  base_name : String
  score : ℚ
  distance_km : ℚ
  state : String
  source : String
deriving Repr, DecidableEq

/-- `round(x, 4)` (Python rounds half to even; the models agree away from
exact half-ten-thousandths). -/
def round4 (q : ℚ) : ℚ := (round (q * 10000) : ℤ) / 10000

/-- `_find_best_match` with its sample-logging side effect: when a best
candidate is found and fewer than 200 samples have been logged, append an
audit entry. -/
def find_best_match_s (fz : String → String → ℚ) (dist : Row → Row → ℚ)
    (master : List Row) (row : Row) (cands : List Nat)
    (samples : List SampleEntry) (ds : String) : Option Nat × List SampleEntry :=
  if row.facility_name_clean = "" then (none, samples)
  else
    match fbmLoop fz dist master row cands (none, 0, none) with
    | (some i, bs, bd) =>
      (some i,
        if samples.length < 200 then
          samples ++ [⟨row.facility_name, (getRow master i).facility_name, bs,
                       round4 (bd.getD 0), row.state, ds⟩]
        else samples)
    | (none, _, _) => (none, samples)

/-! ## MatchResolver: `_name_only_match` (no-coordinate path) -/

/-- One iteration of `_name_only_match`'s candidate loop: skip empty base
names, keep a strictly better candidate with score ≥ 90. -/
def nomStep (fz : String → String → ℚ) (incName : String)
    (acc : Option Nat × ℚ) (p : Nat × Row) : Option Nat × ℚ :=
  if p.2.facility_name_clean = "" then acc
  else if decide (NAME_SCORE_NO_GEO ≤ fz incName p.2.facility_name_clean)
      && decide (acc.2 < fz incName p.2.facility_name_clean) then
    (some p.1, fz incName p.2.facility_name_clean)
  else acc

/-- The district/state restriction of `_name_only_match` on an indexed
master row. -/
def nomKeep (row : Row) (st : String) (p : Nat × Row) : Bool :=
  p.2.state == st && (row.district == "" || p.2.district == row.district)

/-- `_name_only_match`: for rows without coordinates, restrict the master
to the same state (and district when the incoming row has one), refuse
empty or generic incoming names, and keep the single best candidate with
score ≥ 90 (strictly improving, so the earliest of tied scores wins). -/
def name_only_match (fz : String → String → ℚ) (master : List Row)
    (row : Row) (st : String) : Option Nat :=
  if row.facility_name_clean = "" || is_generic_name row.facility_name_clean then none
  else if (master.enum.filter (nomKeep row st)).isEmpty then none
  else ((master.enum.filter (nomKeep row st)).foldl
          (nomStep fz row.facility_name_clean) ((none : Option Nat), (0 : ℚ))).1

/-! ## MergeEngine: `_merge_row` -/

/-- Python `str()` on a possibly-NaN cell: `str(np.nan) = "nan"`. -/
def strFromOpt (o : Option String) : String := o.getD "nan"

/-- The first-non-null fill policy for one descriptive field: copy the
incoming value only when the incoming cell is present and the master cell
is NaN or strips to the empty string. -/
def fillField (m inc : Option String) : Option String :=
  match inc with
  | none => m
  | some v =>
    match m with
    | none => some v
    | some s => if pyStrip s.data = [] then some v else some s

/-- Specialty-set union: both sides split on `|`, set union, empty
component discarded, sorted, re-joined with `|`. -/
def unionSpec (mv : Option String) (iv : String) : String :=
  let ex := splitPipe (mv.getD "").data
  let ic := splitPipe iv.data
  let merged := ((ex ++ ic).dedup).filter (fun p => p ≠ [])
  String.mk (joinPipe (sortChars merged))

/-- OR-accumulation of the per-specialty indicator columns: a column is
set to `1` exactly when the incoming cell equals `1`; master columns with
no incoming counterpart are untouched. -/
def orIndicators : List (Option ℚ) → List (Option ℚ) → List (Option ℚ)
  | [], _ => []
  | m :: ms, [] => m :: ms
  | m :: ms, i :: is' => (if i = some 1 then some 1 else m) :: orIndicators ms is'

/-- `_merge_row` on a single master row: provenance accumulation, field
fill, specialty union, source flag, indicator OR. -/
def mergedRow (m inc : Row) (src : String) : Row :=
  let existingSrc := strFromOpt m.source_datasets
  let sds :=
    if containsSeq src.data existingSrc.data then m.source_datasets
    else some (existingSrc ++ "|" ++ src)
  let sids :=
    match inc.source_id with
    | none => m.source_ids
    | some sid =>
      if pyStrip sid.data = [] then m.source_ids
      else
        let existingIds := m.source_ids.getD ""
        if containsSeq sid.data existingIds.data then m.source_ids
        else some (String.mk (stripPipe (existingIds ++ "|" ++ sid).data))
  let flag := "in_" ++ src.toLower
  { m with
    source_datasets := sds
    source_ids := sids
    address := fillField m.address inc.address
    pincode := fillField m.pincode inc.pincode
    phone := fillField m.phone inc.phone
    email := fillField m.email inc.email
    num_beds := fillField m.num_beds inc.num_beds
    abdm_enabled := fillField m.abdm_enabled inc.abdm_enabled
    is_24x7 := fillField m.is_24x7 inc.is_24x7
    facility_type := fillField m.facility_type inc.facility_type
    facility_subtype := fillField m.facility_subtype inc.facility_subtype
    ownership := fillField m.ownership inc.ownership
    specialties :=
      match inc.specialties with
      | none => m.specialties
      | some iv => some (unionSpec m.specialties iv)
    flags := if m.flags.contains flag then m.flags else m.flags ++ [flag]
    indicators := orIndicators m.indicators inc.indicators }

/-- `_merge_row` at the table level: in-place mutation of the master row
at `i`. -/
def merge_row (master : List Row) (i : Nat) (inc : Row) (src : String) : List Row :=
  master.set i (mergedRow (getRow master i) inc src)

/-! ## Orchestrator: one merge pass (`merge_dataset`) -/

/-- The mutable state of one merge pass: the master table, the unmatched
rows collected so far (in processing order), the matched counter, and the
accumulated audit samples. -/
structure PassSt where
  master : List Row
  unmatched : List Row
  matched : Nat
  samples : List SampleEntry

/-- Process one geo-available incoming row: empty candidate sets go to
unmatched, otherwise resolve and either merge in place or collect as
unmatched. -/
def stepGeo (fz : String → String → ℚ) (dist : Row → Row → ℚ)
    (query : Row → List Nat) (ds : String) (s : PassSt) (row : Row) : PassSt :=
  if (query row).isEmpty then { s with unmatched := s.unmatched ++ [row] }
  else
    match find_best_match_s fz dist s.master row (query row) s.samples ds with
    | (some i, samples') =>
      { s with master := merge_row s.master i row ds,
               matched := s.matched + 1, samples := samples' }
    | (none, samples') =>
      { s with unmatched := s.unmatched ++ [row], samples := samples' }

/-- Process one geo-absent incoming row through the name-only path. -/
def stepNoGeo (fz : String → String → ℚ) (ds : String) (st : String)
    (s : PassSt) (row : Row) : PassSt :=
  match name_only_match fz s.master row st with
  | some i =>
    { s with master := merge_row s.master i row ds, matched := s.matched + 1 }
  | none => { s with unmatched := s.unmatched ++ [row] }

/-- Python `sorted` on state keys (`groupby` iterates keys in sorted
order). -/
def sortStrings (l : List String) : List String :=
  List.insertionSort (fun a b => leChars a.data b.data = true) l

/-- Process one state group: the empty state goes wholly to unmatched;
otherwise the geo-available rows are resolved spatially first, then the
geo-absent rows by name only. -/
def processState (fz : String → String → ℚ) (dist : Row → Row → ℚ)
    (query : Row → List Nat) (ds : String) (incoming : List Row)
    (s : PassSt) (st : String) : PassSt :=
  let group := incoming.filter (fun r => r.state == st)
  if st == "" then { s with unmatched := s.unmatched ++ group }
  else
    let hasGeo := fun (r : Row) => r.latitude.isSome && r.longitude.isSome
    let s1 := (group.filter hasGeo).foldl (stepGeo fz dist query ds) s
    (group.filter (fun r => !hasGeo r)).foldl (stepNoGeo fz ds st) s1

/-- The result of one merge pass. -/
structure MergeResult where
  master : List Row
  matched : Nat
  newCount : Nat
  samples : List SampleEntry
deriving Repr

/-- `merge_dataset`: group the incoming rows by state (sorted keys),
resolve and merge or collect each row, then append all unmatched rows to
the master. `query` models the per-state BallTree radius query built from
the pre-pass master. -/
def merge_dataset (fz : String → String → ℚ) (dist : Row → Row → ℚ)
    (query : Row → List Nat) (ds : String) (master0 : List Row)
    (incoming : List Row) (samples0 : List SampleEntry) : MergeResult :=
  let sts := sortStrings (incoming.map (fun r => r.state)).dedup
  let final := sts.foldl (processState fz dist query ds incoming)
    ⟨master0, [], 0, samples0⟩
  { master := final.master ++ final.unmatched,
    matched := final.matched,
    newCount := final.unmatched.length,
    samples := final.samples }

/-! ## Validation and export (`validate`, `export`, `main`) -/

/-- The row-count warning message of `validate` (the threshold is the
hardcoded literal `323460`, the expected NHA base size). -/
def rowCountIssue (n : Nat) : String :=
  "Row count " ++ toString n ++ " < NHA base 323460!"

/-- The missing-provenance warning message of `validate`. -/
def noSourceIssue (n : Nat) : String :=
  toString n ++ " rows have no source dataset"

/-- `validate`: collect non-fatal issues — a row-count warning when the
master is smaller than the hardcoded 323460, and a provenance warning when
any row lacks `source_datasets`. Out-of-bounding-box coordinates are
counted and logged but produce no issue entry and remove no rows. -/
def validate (m : List Row) : List String :=
  (if m.length < 323460 then [rowCountIssue m.length] else [])
    ++ (if 0 < (m.filter (fun r => r.source_datasets.isNone)).length then
          [noSourceIssue (m.filter (fun r => r.source_datasets.isNone)).length]
        else [])

/-- A row whose coordinates fall outside the India bounding box used by
`validate`'s soft warning. -/
def outOfBox (r : Row) : Bool :=
  match r.latitude, r.longitude with
  | some la, some lo =>
    decide (la < 6) || decide (38 < la) || decide (lo < 68) || decide (98 < lo)
  | _, _ => false

/-- The tail of `main`: `validate` runs, its issue list is not consulted,
and `export` unconditionally writes the full master table. The exported
table is the master itself. -/
def validateThenExport (m : List Row) : List String × List Row :=
  (validate m, m)

/-- Modelled from the spec: the row-count check the specification asks for
(`final < base dataset's row count`), for comparison with the hardcoded
check the code performs. -/
def rowIssueSpec (baseLen finalLen : Nat) : Prop := finalLen < baseLen

/-! ## Derived views of the candidate loop, used in theorem statements -/

/-- The fuzzy score `_find_best_match` computes for candidate `j`. -/
def candScore (fz : String → String → ℚ) (master : List Row) (row : Row) (j : Nat) : ℚ :=
  fz row.facility_name_clean (getRow master j).facility_name_clean

/-- The distance `_find_best_match` computes for candidate `j`. -/
def candDist (dist : Row → Row → ℚ) (master : List Row) (row : Row) (j : Nat) : ℚ :=
  dist row (getRow master j)

/-- Candidate `j` survives the loop's filters and decision rule: non-empty
base name, token overlap at least 0.2, and `matchDecision`. -/
def candPasses (fz : String → String → ℚ) (dist : Row → Row → ℚ)
    (master : List Row) (row : Row) (j : Nat) : Bool :=
  (getRow master j).facility_name_clean ≠ ""
    && !(token_overlap row.facility_name_clean (getRow master j).facility_name_clean < 2/10)
    && matchDecision row (getRow master j)
         (candScore fz master row j) (candDist dist master row j)

/-- The update guard of the loop as a Boolean on the running best key. -/
def beatsB (s d : ℚ) (k : ℚ × Option ℚ) : Bool :=
  decide (k.1 < s) || (decide (s = k.1) && distLt d k.2)

/-- The strict (score, then distance) order on best keys; `none` distance
is the initial `float("inf")`. -/
def optDistLt : Option ℚ → Option ℚ → Prop
  | some d, k => distLt d k = true
  | none, _ => False

/-- `a` strictly beats `k` in the loop's (score desc, distance asc)
order. -/
def KeyBeats (a k : ℚ × Option ℚ) : Prop :=
  k.1 < a.1 ∨ (a.1 = k.1 ∧ optDistLt a.2 k.2)

/-- The key of candidate `j`. -/
def candKey (fz : String → String → ℚ) (dist : Row → Row → ℚ)
    (master : List Row) (row : Row) (j : Nat) : ℚ × Option ℚ :=
  (candScore fz master row j, some (candDist dist master row j))

/-- The non-empty components of a specialties cell. -/
def specMembers (o : Option String) : List (List Char) :=
  (splitPipe (o.getD "").data).filter (fun p => p ≠ [])

/-! ## Concrete scenario rows used by counterexamples and witnesses -/

/-- A master row whose cleaned name is exactly the generic `"PHARMACY"`. -/
def exPharmBase : Row :=
  { facility_name := "Pharmacy", facility_name_clean := "PHARMACY",
    state := "Goa", latitude := some 15, longitude := some 74 }

/-- An incoming row whose cleaned name is exactly the generic
`"PHARMACY"`, in the same state, 0.3 km north of `exPharmBase` (the
`dist` argument of the theorems supplies the corresponding haversine
value). -/
def exPharmInc : Row :=
  { facility_name := "Pharmacy", facility_name_clean := "PHARMACY",
    state := "Goa", latitude := some (15 + 27/10000), longitude := some 74 }

/-- Master row for the type-gated borderline scenario, facility type
present but empty. -/
def exUnitBase : Row :=
  { facility_name_clean := "PRIMARY HEALTH CENTRE SECTOR 5",
    state := "Goa", latitude := some 15, longitude := some 74,
    facility_type := some "" }

/-- Incoming row for the type-gated borderline scenario, facility type
present but empty; its token-sort score against `exUnitBase` is
`2300/29 ≈ 79.3`, inside `[70, 85)`. -/
def exUnitInc : Row :=
  { facility_name_clean := "PRIMARY HEALTH UNIT SECTOR 5",
    state := "Goa", latitude := some 15, longitude := some 74,
    facility_type := some "" }

/-- The same master row with a populated canonical facility type. -/
def exUnitBaseTyped : Row := { exUnitBase with facility_type := some "Primary Health Centre" }

/-- The same incoming row with the same populated facility type. -/
def exUnitIncTyped : Row := { exUnitInc with facility_type := some "Primary Health Centre" }

/-- A coordinate-less master row with the generic cleaned name
`"PHARMACY"`. -/
def exGenBase : Row :=
  { facility_name_clean := "PHARMACY", state := "Goa", district := "North Goa" }

/-- A coordinate-less incoming row with the non-generic cleaned name
`"PHARMACYS"`; its token-sort score against `exGenBase` is
`1600/17 ≈ 94.1 ≥ 90`. -/
def exGenInc : Row :=
  { facility_name_clean := "PHARMACYS", state := "Goa", district := "" }

/-- A master row for clear-match witnesses. -/
def exCityBase : Row :=
  { facility_name := "City General Hospital",
    facility_name_clean := "CITY GENERAL HOSPITAL X",
    state := "Goa", district := "North Goa", latitude := some 15, longitude := some 74 }

/-- An incoming row scoring `4600/47 ≈ 97.9` against `exCityBase`, about
50 m away. -/
def exCityInc : Row :=
  { facility_name := "City General Hospitals",
    facility_name_clean := "CITY GENERAL HOSPITALS X",
    state := "Goa", district := "North Goa",
    latitude := some (15 + 45/100000), longitude := some 74 }

/-- Base master row of the sample-cap run. -/
def exBaseA : Row :=
  { facility_name := "A", facility_name_clean := "A", state := "Goa",
    latitude := some 15, longitude := some 74, source_datasets := some "NHA" }

/-- Incoming row repeated 200 times in the sample-cap run; scores 95. -/
def exRowA : Row :=
  { facility_name := "A", facility_name_clean := "A", state := "Goa",
    latitude := some 15, longitude := some 74 }

/-- The 201st incoming row of the sample-cap run; scores 100 but arrives
after the sample list is full. -/
def exRowB : Row :=
  { facility_name := "A B", facility_name_clean := "A B", state := "Goa",
    latitude := some 15, longitude := some 74 }

/-- The scorer of the sample-cap run: 95 for the repeated row, 100 for the
late row. -/
def exFzAB : String → String → ℚ := fun a _ => if a = "A" then 95 else 100

/-- A one-row master table with provenance, for the validation scenario of
a base dataset with a single row. -/
def exNhaRow : Row :=
  { facility_name := "Some Facility", facility_name_clean := "SOME FACILITY",
    state := "Goa", source_datasets := some "NHA" }

/-- An audit entry of fuzzy score 95, as produced by 200 earlier accepted
geo matches of the same run (the `sample_matches` list persists across
merge passes on the `MasterMerger` instance). -/
def exSample95 : SampleEntry :=
  { incoming_name := "A", base_name := "A", score := 95, distance_km := 0,
    state := "Goa", source := "PHC" }

/-- A master row with populated descriptive fields, for the no-overwrite
witness. -/
def exFilledBase : Row :=
  { facility_name_clean := "SOME FACILITY", state := "Goa",
    address := some "12 Main Road", pincode := some "403001",
    phone := some "0832000000", email := some "a@b.c",
    num_beds := some "20", abdm_enabled := some "Yes", is_24x7 := some "Yes",
    facility_type := some "Hospital", facility_subtype := some "General",
    ownership := some "Government",
    specialties := some "CARDIOLOGY|ONCOLOGY",
    indicators := [some 1, none, some 0] }

/-- An incoming row carrying different populated values for every
descriptive field. -/
def exFillInc : Row :=
  { facility_name_clean := "SOME FACILITY",
    address := some "99 Other Street", pincode := some "999999",
    phone := some "1111111111", email := some "x@y.z",
    num_beds := some "50", abdm_enabled := some "No", is_24x7 := some "No",
    facility_type := some "Clinic/Dispensary", facility_subtype := some "Other",
    ownership := some "Private",
    specialties := some "ONCOLOGY|DERMATOLOGY",
    indicators := [none, some 1, some 1] }

/-! ## Lemmas: the candidate loop of `_find_best_match` -/

theorem matchDecision_score_ge {inc base : Row} {s d : ℚ}
    (h : matchDecision inc base s d = true) : NAME_SCORE_MEDIUM ≤ s := by
  unfold matchDecision at h
  split_ifs at h with h1 h2 h3
  · simp only [Bool.and_eq_true, decide_eq_true_eq] at h
    have := h.2
    unfold NAME_SCORE_GENERIC at this
    unfold NAME_SCORE_MEDIUM
    linarith
  · unfold NAME_SCORE_HIGH at h2
    unfold NAME_SCORE_MEDIUM
    linarith
  · exact h3

theorem candPasses_score_ge {fz : String → String → ℚ} {dist : Row → Row → ℚ}
    {master : List Row} {row : Row} {j : Nat}
    (h : candPasses fz dist master row j = true) :
    NAME_SCORE_MEDIUM ≤ candScore fz master row j := by
  unfold candPasses at h
  simp only [Bool.and_eq_true] at h
  exact matchDecision_score_ge h.2

theorem fbmStep_eq (fz : String → String → ℚ) (dist : Row → Row → ℚ)
    (master : List Row) (row : Row) (acc : Option Nat × ℚ × Option ℚ) (j : Nat) :
    fbmStep fz dist master row acc j =
      if candPasses fz dist master row j
          && beatsB (candScore fz master row j) (candDist dist master row j) acc.2 then
        (some j, candScore fz master row j, some (candDist dist master row j))
      else acc := by
  simp only [fbmStep, candPasses, beatsB, candScore, candDist]
  by_cases h1 : (getRow master j).facility_name_clean = ""
  · simp [h1]
  · by_cases h2 :
        token_overlap row.facility_name_clean (getRow master j).facility_name_clean < 2/10
    · simp [h1, h2]
    · by_cases h3 : matchDecision row (getRow master j)
          (fz row.facility_name_clean (getRow master j).facility_name_clean)
          (dist row (getRow master j)) = true
      · simp [h1, h2, h3]
      · simp [h1, h2, h3]

theorem fbmLoop_some_stable (fz : String → String → ℚ) (dist : Row → Row → ℚ)
    (master : List Row) (row : Row) :
    ∀ (cs : List Nat) (acc : Option Nat × ℚ × Option ℚ), acc.1.isSome →
      (fbmLoop fz dist master row cs acc).1.isSome := by
  intro cs
  induction cs with
  | nil => intro acc h; exact h
  | cons c cs ih =>
    intro acc h
    simp only [fbmLoop]
    apply ih
    rw [fbmStep_eq]
    split
    · simp
    · exact h

theorem fbmLoop_none (fz : String → String → ℚ) (dist : Row → Row → ℚ)
    (master : List Row) (row : Row) :
    ∀ (cs : List Nat),
      (fbmLoop fz dist master row cs (none, 0, none)).1 = none →
      ∀ j ∈ cs, candPasses fz dist master row j = false := by
  intro cs
  induction cs with
  | nil => intro _ j hj; simp at hj
  | cons c cs ih =>
    intro hres j hj
    simp only [fbmLoop] at hres
    rw [fbmStep_eq] at hres
    by_cases hcond : (candPasses fz dist master row c
        && beatsB (candScore fz master row c) (candDist dist master row c)
             ((none, 0, none) : Option Nat × ℚ × Option ℚ).2) = true
    · rw [if_pos hcond] at hres
      have := fbmLoop_some_stable fz dist master row cs
        (some c, candScore fz master row c, some (candDist dist master row c)) (by simp)
      rw [hres] at this
      simp at this
    · rw [if_neg hcond] at hres
      rcases List.mem_cons.mp hj with rfl | hj'
      · by_contra hpass
        simp only [Bool.not_eq_false] at hpass
        apply hcond
        simp only [hpass, Bool.true_and, beatsB, distLt]
        have hs := candPasses_score_ge hpass
        have : (0 : ℚ) < candScore fz master row j := by
          unfold NAME_SCORE_MEDIUM at hs; linarith
        simp [this]
      · exact ih hres j hj'

theorem fbmLoop_sound (fz : String → String → ℚ) (dist : Row → Row → ℚ)
    (master : List Row) (row : Row) :
    ∀ (cs : List Nat) (acc : Option Nat × ℚ × Option ℚ),
      fbmLoop fz dist master row cs acc = acc ∨
      ∃ j ∈ cs, candPasses fz dist master row j = true ∧
        fbmLoop fz dist master row cs acc =
          (some j, candScore fz master row j, some (candDist dist master row j)) := by
  intro cs
  induction cs with
  | nil => intro acc; left; rfl
  | cons c cs ih =>
    intro acc
    simp only [fbmLoop]
    rw [fbmStep_eq]
    split
    · rename_i hcond
      simp only [Bool.and_eq_true] at hcond
      rcases ih (some c, candScore fz master row c, some (candDist dist master row c)) with
        h | ⟨j, hj, hpass, hres⟩
      · right
        exact ⟨c, List.mem_cons_self c cs, hcond.1, h⟩
      · right
        exact ⟨j, List.mem_cons_of_mem c hj, hpass, hres⟩
    · rcases ih acc with h | ⟨j, hj, hpass, hres⟩
      · left; exact h
      · right; exact ⟨j, List.mem_cons_of_mem c hj, hpass, hres⟩

theorem keyBeats_irrefl (k : ℚ × Option ℚ) : ¬ KeyBeats k k := by
  rintro (h | ⟨-, h⟩)
  · exact lt_irrefl _ h
  · rcases k with ⟨s, _ | d⟩
    · exact h
    · simp only [optDistLt, distLt, decide_eq_true_eq] at h
      exact lt_irrefl _ h

theorem keyBeats_trans {a b c : ℚ × Option ℚ}
    (hab : KeyBeats a b) (hbc : KeyBeats b c) : KeyBeats a c := by
  rcases a with ⟨sa, da⟩; rcases b with ⟨sb, db⟩; rcases c with ⟨sc, dc⟩
  rcases hab with h1 | ⟨h1, h1'⟩ <;> rcases hbc with h2 | ⟨h2, h2'⟩
  · exact Or.inl (lt_trans h2 h1)
  · exact Or.inl (h2 ▸ h1)
  · exact Or.inl (h1 ▸ h2)
  · right
    refine ⟨h1.trans h2, ?_⟩
    rcases da with _ | da
    · exact absurd h1' (by simp [optDistLt])
    · rcases db with _ | db
      · exact absurd h2' (by simp [optDistLt])
      · simp only [optDistLt, distLt] at h1' h2' ⊢
        rcases dc with _ | dc
        · rfl
        · simp only [decide_eq_true_eq] at h1' h2' ⊢
          exact lt_trans h1' h2'

theorem beatsB_iff (s d : ℚ) (k : ℚ × Option ℚ) :
    beatsB s d k = true ↔ KeyBeats (s, some d) k := by
  unfold beatsB KeyBeats optDistLt
  simp only [Bool.or_eq_true, Bool.and_eq_true, decide_eq_true_eq]

theorem fbmLoop_key_ge (fz : String → String → ℚ) (dist : Row → Row → ℚ)
    (master : List Row) (row : Row) :
    ∀ (cs : List Nat) (acc : Option Nat × ℚ × Option ℚ),
      (fbmLoop fz dist master row cs acc).2 = acc.2 ∨
      KeyBeats (fbmLoop fz dist master row cs acc).2 acc.2 := by
  intro cs
  induction cs with
  | nil => intro acc; left; rfl
  | cons c cs ih =>
    intro acc
    simp only [fbmLoop]
    rw [fbmStep_eq]
    split
    · rename_i hcond
      simp only [Bool.and_eq_true] at hcond
      have hb : KeyBeats (candScore fz master row c, some (candDist dist master row c)) acc.2 :=
        (beatsB_iff _ _ _).mp hcond.2
      rcases ih (some c, candScore fz master row c, some (candDist dist master row c)) with
        h | h
      · right; rw [h]; exact hb
      · right; exact keyBeats_trans h hb
    · exact ih acc

theorem fbmLoop_max (fz : String → String → ℚ) (dist : Row → Row → ℚ)
    (master : List Row) (row : Row) :
    ∀ (cs : List Nat) (acc : Option Nat × ℚ × Option ℚ) (j : Nat), j ∈ cs →
      candPasses fz dist master row j = true →
      ¬ KeyBeats (candKey fz dist master row j) (fbmLoop fz dist master row cs acc).2 := by
  intro cs
  induction cs with
  | nil => intro acc j hj; simp at hj
  | cons c cs ih =>
    intro acc j hj hpass
    simp only [fbmLoop]
    rcases List.mem_cons.mp hj with rfl | hj'
    · -- j is the head; after its own step the accumulator key is not
      -- beaten by j, and the rest of the fold only improves the key.
      have hstep : ¬ KeyBeats (candKey fz dist master row j)
          (fbmStep fz dist master row acc j).2 := by
        rw [fbmStep_eq]
        split
        · exact keyBeats_irrefl _
        · rename_i hcond
          simp only [hpass, Bool.true_and] at hcond
          intro hk
          exact hcond ((beatsB_iff _ _ _).mpr hk)
      intro hk
      rcases fbmLoop_key_ge fz dist master row cs (fbmStep fz dist master row acc j) with
        h | h
      · rw [h] at hk; exact hstep hk
      · exact hstep (keyBeats_trans hk h)
    · exact ih _ j hj' hpass

theorem matchDecision_generic {inc base : Row} {s d : ℚ}
    (hg : (is_generic_name inc.facility_name_clean
            || is_generic_name base.facility_name_clean) = true)
    (h : matchDecision inc base s d = true) :
    d ≤ TIGHT_RADIUS_KM ∧ NAME_SCORE_GENERIC ≤ s := by
  unfold matchDecision at h
  rw [if_pos hg] at h
  simpa using h

theorem token_overlap_empty_left (b : String) : token_overlap "" b = 0 := by
  unfold token_overlap splitWS
  simp

theorem candPasses_of_empty_inc {fz : String → String → ℚ} {dist : Row → Row → ℚ}
    {master : List Row} {row : Row} (h : row.facility_name_clean = "") (j : Nat) :
    candPasses fz dist master row j = false := by
  unfold candPasses
  rw [h, token_overlap_empty_left]
  norm_num

theorem find_best_match_as_loop {fz : String → String → ℚ} {dist : Row → Row → ℚ}
    {master : List Row} {row : Row} {cands : List Nat} {i : Nat}
    (h : find_best_match fz dist master row cands = some i) :
    i ∈ cands ∧ candPasses fz dist master row i = true ∧
      fbmLoop fz dist master row cands (none, 0, none) =
        (some i, candScore fz master row i, some (candDist dist master row i)) := by
  unfold find_best_match at h
  split at h
  · exact absurd h (by simp)
  · rcases fbmLoop_sound fz dist master row cands (none, 0, none) with hs | ⟨j, hj, hp, hres⟩
    · rw [hs] at h; exact absurd h (by simp)
    · rw [hres] at h
      simp only [Option.some.injEq] at h
      subst h
      exact ⟨hj, hp, hres⟩

/-- **C1**: in the geo path, whenever either cleaned name is generic, a
candidate is returned only if its distance is at most 0.1 km and its fuzzy
score is at least 95; and concretely, two rows both cleaned to exactly
`"PHARMACY"` that are 0.3 km apart are not merged even at fuzzy score
100. -/
theorem generic_names_require_tight_match :
    (∀ (fz : String → String → ℚ) (dist : Row → Row → ℚ) (master : List Row) (row : Row)
        (cands : List Nat) (i : Nat),
      find_best_match fz dist master row cands = some i →
      (is_generic_name row.facility_name_clean = true ∨
        is_generic_name (getRow master i).facility_name_clean = true) →
      candDist dist master row i ≤ TIGHT_RADIUS_KM ∧
        NAME_SCORE_GENERIC ≤ candScore fz master row i) ∧
    find_best_match (fun _ _ => (100 : ℚ)) (fun _ _ => (3 : ℚ)/10)
      [exPharmBase] exPharmInc [0] = none := by
  constructor
  · intro fz dist master row cands i hres hgen
    obtain ⟨-, hpass, -⟩ := find_best_match_as_loop hres
    unfold candPasses at hpass
    simp only [Bool.and_eq_true] at hpass
    exact matchDecision_generic (by simp only [Bool.or_eq_true]; exact hgen) hpass.2
  · with_unfolding_all decide

/-- Witness for the generic-name rule: the same two `"PHARMACY"` rows at
0.05 km and score 100 are merged, and the theorem reports distance ≤ 0.1
and score ≥ 95 for the accepted candidate. -/
theorem generic_names_require_tight_match_witness :
    candDist (fun _ _ => (5 : ℚ)/100) [exPharmBase] exPharmInc 0 ≤ TIGHT_RADIUS_KM ∧
      NAME_SCORE_GENERIC ≤ candScore (fun _ _ => (100 : ℚ)) [exPharmBase] exPharmInc 0 :=
  generic_names_require_tight_match.1 (fun _ _ => (100 : ℚ)) (fun _ _ => (5 : ℚ)/100)
    [exPharmBase] exPharmInc [0] 0 (by with_unfolding_all decide)
    (by with_unfolding_all decide)

/-- **C3**: the resolver is a total function returning at most one master
index; a returned index is a candidate that passed the decision rule and
carries the maximal fuzzy score, with score ties broken towards smaller
distance; when it returns nothing, no candidate passed the rule. -/
theorem resolver_picks_unique_best :
    ∀ (fz : String → String → ℚ) (dist : Row → Row → ℚ) (master : List Row) (row : Row)
      (cands : List Nat),
      (∀ i, find_best_match fz dist master row cands = some i →
        i ∈ cands ∧ candPasses fz dist master row i = true ∧
        ∀ j ∈ cands, candPasses fz dist master row j = true →
          candScore fz master row j ≤ candScore fz master row i ∧
          (candScore fz master row j = candScore fz master row i →
            candDist dist master row i ≤ candDist dist master row j)) ∧
      (find_best_match fz dist master row cands = none →
        ∀ j ∈ cands, candPasses fz dist master row j = false) := by
  intro fz dist master row cands
  constructor
  · intro i hres
    obtain ⟨hmem, hpass, hloop⟩ := find_best_match_as_loop hres
    refine ⟨hmem, hpass, ?_⟩
    intro j hj hpj
    have hmax := fbmLoop_max fz dist master row cands (none, 0, none) j hj hpj
    rw [hloop] at hmax
    unfold candKey KeyBeats at hmax
    simp only [optDistLt, distLt, decide_eq_true_eq] at hmax
    push_neg at hmax
    exact hmax
  · intro hres j hj
    unfold find_best_match at hres
    split at hres
    · exact candPasses_of_empty_inc (by assumption) j
    · exact fbmLoop_none fz dist master row cands hres j hj

/-- **C2 (amended)**: in the geo path's medium band — non-generic names,
fuzzy score in `[70, 85)` — a candidate passes the decision rule if and
only if both rows carry the *same, non-empty, non-missing* canonical
facility type. (The original claim's parenthetical — that two empty or
missing facility types also count as "sharing" a type — is refuted by
`medium_band_empty_types_reject`: Python's `inc_ftype and base_ftype`
guard makes empty strings falsy and `NaN != NaN`.) -/
theorem medium_band_requires_equal_nonempty_type :
    ∀ (inc base : Row) (score dist : ℚ),
      is_generic_name inc.facility_name_clean = false →
      is_generic_name base.facility_name_clean = false →
      NAME_SCORE_MEDIUM ≤ score → score < NAME_SCORE_HIGH →
      (matchDecision inc base score dist = true ↔
        ∃ t, inc.facility_type = some t ∧ t ≠ "" ∧ base.facility_type = some t) := by
  intro inc base score dist hg1 hg2 hlo hhi
  unfold matchDecision
  rw [if_neg (by simp [hg1, hg2]), if_neg (not_le.mpr hhi), if_pos hlo]
  constructor
  · intro h
    simp only [Bool.and_eq_true] at h
    cases hit : inc.facility_type with
    | none =>
      exfalso
      have heq := h.2
      rw [hit] at heq
      cases base.facility_type <;> simp [ftypeEq] at heq
    | some t =>
      cases hbt : base.facility_type with
      | none =>
        exfalso
        have heq := h.2
        rw [hit, hbt] at heq
        simp [ftypeEq] at heq
      | some t2 =>
        have heq := h.2
        have ht1 := h.1.1
        rw [hit, hbt] at heq
        rw [hit] at ht1
        simp only [ftypeEq, decide_eq_true_eq] at heq
        subst heq
        exact ⟨t, rfl, by simpa [ftypeTruthy] using ht1, rfl⟩
  · rintro ⟨t, h1, h2, h3⟩
    rw [h1, h3]
    simp [ftypeTruthy, ftypeEq, h2]

/-- **C2 counterexample**: two non-generic names at the same location with
token-sort score `2300/29 ≈ 79.3 ∈ [70, 85)` and facility types both
present but empty (`""`, as the loader's standardizer produces for missing
types) are **not** matched: the decision rule rejects and the resolver
returns nothing, contradicting the claim's "including the case where both
facility types are empty or missing". -/
theorem medium_band_empty_types_reject :
    NAME_SCORE_MEDIUM
        ≤ fuzzTokenSort exUnitInc.facility_name_clean exUnitBase.facility_name_clean ∧
    fuzzTokenSort exUnitInc.facility_name_clean exUnitBase.facility_name_clean
        < NAME_SCORE_HIGH ∧
    exUnitInc.facility_type = some "" ∧ exUnitBase.facility_type = some "" ∧
    matchDecision exUnitInc exUnitBase
      (fuzzTokenSort exUnitInc.facility_name_clean exUnitBase.facility_name_clean) 0
      = false ∧
    find_best_match fuzzTokenSort (fun _ _ => 0) [exUnitBase] exUnitInc [0] = none := by
  with_unfolding_all decide

/-- Witness for the amended medium-band rule: with both rows typed
`"Primary Health Centre"` and score 75, the decision accepts. -/
theorem medium_band_requires_equal_nonempty_type_witness :
    matchDecision exUnitIncTyped exUnitBaseTyped 75 0 = true :=
  (medium_band_requires_equal_nonempty_type exUnitIncTyped exUnitBaseTyped 75 0
      (by with_unfolding_all decide) (by with_unfolding_all decide)
      (by with_unfolding_all decide) (by with_unfolding_all decide)).mpr
    ⟨"Primary Health Centre", rfl, by decide, rfl⟩

/-! ## Lemmas: the candidate loop of `_name_only_match` -/

theorem nomFold_some_stable (fz : String → String → ℚ) (incName : String) :
    ∀ (cs : List (Nat × Row)) (acc : Option Nat × ℚ), acc.1.isSome →
      (List.foldl (nomStep fz incName) acc cs).1.isSome := by
  intro cs
  induction cs with
  | nil => intro acc h; exact h
  | cons c cs ih =>
    intro acc h
    rw [List.foldl_cons]
    apply ih
    unfold nomStep
    split
    · exact h
    · split
      · simp
      · exact h

theorem nomFold_sound (fz : String → String → ℚ) (incName : String) :
    ∀ (cs : List (Nat × Row)) (acc : Option Nat × ℚ),
      List.foldl (nomStep fz incName) acc cs = acc ∨
      ∃ p ∈ cs, p.2.facility_name_clean ≠ "" ∧
        NAME_SCORE_NO_GEO ≤ fz incName p.2.facility_name_clean ∧
        List.foldl (nomStep fz incName) acc cs =
          (some p.1, fz incName p.2.facility_name_clean) := by
  intro cs
  induction cs with
  | nil => intro acc; left; rfl
  | cons c cs ih =>
    intro acc
    rw [List.foldl_cons]
    by_cases h1 : c.2.facility_name_clean = ""
    · have hstep : nomStep fz incName acc c = acc := by unfold nomStep; rw [if_pos h1]
      rw [hstep]
      rcases ih acc with h | ⟨p, hp, hres⟩
      · left; exact h
      · right; exact ⟨p, List.mem_cons_of_mem c hp, hres⟩
    · by_cases h2 : (decide (NAME_SCORE_NO_GEO ≤ fz incName c.2.facility_name_clean)
          && decide (acc.2 < fz incName c.2.facility_name_clean)) = true
      · have hstep : nomStep fz incName acc c =
            (some c.1, fz incName c.2.facility_name_clean) := by
          unfold nomStep; rw [if_neg h1, if_pos h2]
        rw [hstep]
        simp only [Bool.and_eq_true, decide_eq_true_eq] at h2
        rcases ih (some c.1, fz incName c.2.facility_name_clean) with h | ⟨p, hp, hres⟩
        · right; exact ⟨c, List.mem_cons_self c cs, h1, h2.1, h⟩
        · right; exact ⟨p, List.mem_cons_of_mem c hp, hres⟩
      · have hstep : nomStep fz incName acc c = acc := by
          unfold nomStep; rw [if_neg h1, if_neg h2]
        rw [hstep]
        rcases ih acc with h | ⟨p, hp, hres⟩
        · left; exact h
        · right; exact ⟨p, List.mem_cons_of_mem c hp, hres⟩

theorem nomFold_score_ge (fz : String → String → ℚ) (incName : String) :
    ∀ (cs : List (Nat × Row)) (acc : Option Nat × ℚ),
      acc.2 ≤ (List.foldl (nomStep fz incName) acc cs).2 := by
  intro cs
  induction cs with
  | nil => intro acc; exact le_refl _
  | cons c cs ih =>
    intro acc
    rw [List.foldl_cons]
    refine le_trans ?_ (ih (nomStep fz incName acc c))
    unfold nomStep
    split
    · exact le_refl _
    · split
      · rename_i hg
        simp only [Bool.and_eq_true, decide_eq_true_eq] at hg
        exact le_of_lt hg.2
      · exact le_refl _

theorem nomFold_max (fz : String → String → ℚ) (incName : String) :
    ∀ (cs : List (Nat × Row)) (acc : Option Nat × ℚ) (p : Nat × Row), p ∈ cs →
      p.2.facility_name_clean ≠ "" →
      NAME_SCORE_NO_GEO ≤ fz incName p.2.facility_name_clean →
      fz incName p.2.facility_name_clean ≤ (List.foldl (nomStep fz incName) acc cs).2 := by
  intro cs
  induction cs with
  | nil => intro acc p hp; simp at hp
  | cons c cs ih =>
    intro acc p hp hname hsc
    rw [List.foldl_cons]
    rcases List.mem_cons.mp hp with rfl | hp'
    · refine le_trans ?_ (nomFold_score_ge fz incName cs (nomStep fz incName acc p))
      unfold nomStep
      rw [if_neg hname]
      split
      · exact le_refl _
      · rename_i hg
        simp only [Bool.and_eq_true, decide_eq_true_eq, not_and, not_lt] at hg
        exact hg hsc
    · exact ih (nomStep fz incName acc c) p hp' hname hsc

theorem nomFold_none (fz : String → String → ℚ) (incName : String) :
    ∀ (cs : List (Nat × Row)),
      (List.foldl (nomStep fz incName) ((none : Option Nat), (0 : ℚ)) cs).1 = none →
      ∀ p ∈ cs, p.2.facility_name_clean ≠ "" →
        fz incName p.2.facility_name_clean < NAME_SCORE_NO_GEO := by
  intro cs
  induction cs with
  | nil => intro _ p hp; simp at hp
  | cons c cs ih =>
    intro hres p hp hname
    rw [List.foldl_cons] at hres
    rcases List.mem_cons.mp hp with rfl | hp'
    · by_contra hge
      push_neg at hge
      have h0 : (0 : ℚ) < fz incName p.2.facility_name_clean := by
        have hpos : (0 : ℚ) < NAME_SCORE_NO_GEO := by unfold NAME_SCORE_NO_GEO; norm_num
        linarith
      have hstep : nomStep fz incName ((none : Option Nat), (0 : ℚ)) p =
          (some p.1, fz incName p.2.facility_name_clean) := by
        unfold nomStep
        rw [if_neg hname, if_pos]
        simp only [Bool.and_eq_true, decide_eq_true_eq]
        exact ⟨hge, h0⟩
      rw [hstep] at hres
      have hs := nomFold_some_stable fz incName cs
        (some p.1, fz incName p.2.facility_name_clean) (by simp)
      rw [hres] at hs
      simp at hs
    · by_cases h1 : c.2.facility_name_clean = ""
      · have hstep : nomStep fz incName ((none : Option Nat), (0 : ℚ)) c =
            ((none : Option Nat), (0 : ℚ)) := by
          unfold nomStep; rw [if_pos h1]
        rw [hstep] at hres
        exact ih hres p hp' hname
      · by_cases h2 : NAME_SCORE_NO_GEO ≤ fz incName c.2.facility_name_clean
        · have h0 : (0 : ℚ) < fz incName c.2.facility_name_clean := by
            have hpos : (0 : ℚ) < NAME_SCORE_NO_GEO := by unfold NAME_SCORE_NO_GEO; norm_num
            linarith
          have hstep : nomStep fz incName ((none : Option Nat), (0 : ℚ)) c =
              (some c.1, fz incName c.2.facility_name_clean) := by
            unfold nomStep
            rw [if_neg h1, if_pos]
            simp only [Bool.and_eq_true, decide_eq_true_eq]
            exact ⟨h2, h0⟩
          rw [hstep] at hres
          have hs := nomFold_some_stable fz incName cs
            (some c.1, fz incName c.2.facility_name_clean) (by simp)
          rw [hres] at hs
          simp at hs
        · have hstep : nomStep fz incName ((none : Option Nat), (0 : ℚ)) c =
              ((none : Option Nat), (0 : ℚ)) := by
            unfold nomStep
            rw [if_neg h1, if_neg]
            simp only [Bool.and_eq_true, decide_eq_true_eq, not_and]
            intro hx
            exact absurd hx h2
          rw [hstep] at hres
          exact ih hres p hp' hname

theorem mem_nomCands {master : List Row} {row : Row} {st : String} {j : Nat} {r : Row} :
    (j, r) ∈ master.enum.filter (nomKeep row st) ↔
      master[j]? = some r ∧ r.state = st ∧
        (row.district = "" ∨ r.district = row.district) := by
  rw [List.mem_filter]
  unfold nomKeep
  simp only [List.mk_mem_enum_iff_getElem?, Bool.and_eq_true, Bool.or_eq_true, beq_iff_eq]

theorem getRow_of_getElem? {master : List Row} {j : Nat} {r : Row}
    (h : master[j]? = some r) : getRow master j = r ∧ j < master.length := by
  constructor
  · unfold getRow
    rw [List.getD_eq_getElem?_getD, h]
    rfl
  · exact (List.getElem?_eq_some.mp h).1

theorem getElem?_of_lt {master : List Row} {j : Nat} (h : j < master.length) :
    master[j]? = some (getRow master j) := by
  unfold getRow
  rw [List.getD_eq_getElem?_getD, List.getElem?_eq_getElem h]
  rfl

/-- **C4 (amended)**: the no-coordinate path restricts candidates to the
same canonical state (and district when the incoming record has one),
never matches an *incoming* record whose cleaned name is empty or generic,
and accepts exactly the highest-scoring candidate when its score is ≥ 90.
(The original claim's stronger "no match in which **either** cleaned name
is generic" fails: the code never inspects the master side's name; see
`no_geo_generic_master_matched`.) -/
theorem no_geo_path_characterization :
    ∀ (fz : String → String → ℚ) (master : List Row) (row : Row) (st : String),
      (row.facility_name_clean = "" ∨ is_generic_name row.facility_name_clean = true →
        name_only_match fz master row st = none) ∧
      (∀ i, name_only_match fz master row st = some i →
        i < master.length ∧ (getRow master i).state = st ∧
        (row.district = "" ∨ (getRow master i).district = row.district) ∧
        (getRow master i).facility_name_clean ≠ "" ∧
        NAME_SCORE_NO_GEO ≤ fz row.facility_name_clean (getRow master i).facility_name_clean ∧
        ∀ j, j < master.length → (getRow master j).state = st →
          (row.district = "" ∨ (getRow master j).district = row.district) →
          (getRow master j).facility_name_clean ≠ "" →
          fz row.facility_name_clean (getRow master j).facility_name_clean ≤
            fz row.facility_name_clean (getRow master i).facility_name_clean) ∧
      (name_only_match fz master row st = none →
        row.facility_name_clean ≠ "" → is_generic_name row.facility_name_clean = false →
        ∀ j, j < master.length → (getRow master j).state = st →
          (row.district = "" ∨ (getRow master j).district = row.district) →
          (getRow master j).facility_name_clean ≠ "" →
          fz row.facility_name_clean (getRow master j).facility_name_clean
            < NAME_SCORE_NO_GEO) := by
  intro fz master row st
  refine ⟨?_, ?_, ?_⟩
  · intro h
    unfold name_only_match
    rw [if_pos]
    rcases h with h | h
    · simp [h]
    · simp [h]
  · intro i hres
    unfold name_only_match at hres
    split at hres
    · exact absurd hres (by simp)
    · split at hres
      · exact absurd hres (by simp)
      · rcases nomFold_sound fz row.facility_name_clean
            (master.enum.filter (nomKeep row st)) ((none : Option Nat), (0 : ℚ)) with
          hs | ⟨p, hp, hname, hsc, hs⟩
        · rw [hs] at hres; exact absurd hres (by simp)
        · rw [hs] at hres
          simp only [Option.some.injEq] at hres
          obtain ⟨hget, hstate, hdist⟩ := mem_nomCands.mp hp
          obtain ⟨hgr, hlt⟩ := getRow_of_getElem? hget
          subst hres
          rw [hgr]
          refine ⟨hlt, hstate, hdist, hname, hsc, ?_⟩
          intro j hj hjs hjd hjn
          have hmem : (j, getRow master j) ∈ master.enum.filter (nomKeep row st) :=
            mem_nomCands.mpr ⟨getElem?_of_lt hj, hjs, hjd⟩
          by_cases hscj : NAME_SCORE_NO_GEO ≤
              fz row.facility_name_clean (getRow master j).facility_name_clean
          · have := nomFold_max fz row.facility_name_clean
              (master.enum.filter (nomKeep row st)) ((none : Option Nat), (0 : ℚ))
              (j, getRow master j) hmem hjn hscj
            rw [hs] at this
            exact this
          · push_neg at hscj
            calc fz row.facility_name_clean (getRow master j).facility_name_clean
                ≤ NAME_SCORE_NO_GEO := le_of_lt hscj
              _ ≤ fz row.facility_name_clean p.2.facility_name_clean := hsc
  · intro hres hne hng j hj hjs hjd hjn
    have hmem : (j, getRow master j) ∈ master.enum.filter (nomKeep row st) :=
      mem_nomCands.mpr ⟨getElem?_of_lt hj, hjs, hjd⟩
    unfold name_only_match at hres
    split at hres
    · rename_i hempty
      simp only [Bool.or_eq_true, decide_eq_true_eq] at hempty
      rcases hempty with h | h
      · exact absurd h hne
      · rw [h] at hng; exact absurd hng (by simp)
    · split at hres
      · rename_i hcempty
        rw [List.isEmpty_iff] at hcempty
        rw [hcempty] at hmem
        simp at hmem
      · exact nomFold_none fz row.facility_name_clean _ hres (j, getRow master j) hmem hjn

/-- **C4 counterexample**: in the no-coordinate path, a *master* record
with the generic cleaned name `"PHARMACY"` is matched by the non-generic
incoming `"PHARMACYS"` (token-sort score `1600/17 ≈ 94.1 ≥ 90`) — a match
in which one of the two cleaned names is generic, contrary to the claim
that generic names are never matched this way. -/
theorem no_geo_generic_master_matched :
    name_only_match fuzzTokenSort [exGenBase] exGenInc "Goa" = some 0 ∧
    is_generic_name (getRow [exGenBase] 0).facility_name_clean = true ∧
    is_generic_name exGenInc.facility_name_clean = false := by
  with_unfolding_all decide

/-- Witness for the no-geo characterization: a same-state candidate at
score `4600/47 ≈ 97.9 ≥ 90` is accepted and the theorem reports the state
restriction and the score bound. -/
theorem no_geo_path_characterization_witness :
    (getRow [exCityBase] 0).state = "Goa" ∧
      NAME_SCORE_NO_GEO ≤
        fuzzTokenSort exCityInc.facility_name_clean
          (getRow [exCityBase] 0).facility_name_clean := by
  have h := (no_geo_path_characterization fuzzTokenSort [exCityBase] exCityInc "Goa").2.1
    0 (by with_unfolding_all decide)
  exact ⟨h.2.1, h.2.2.2.2.1⟩

/-- Witness for the resolver characterization: the clear-match scenario
(score `4200/43 ≈ 97.7` at 50 m) is accepted, is a candidate, and passed
the decision rule. -/
theorem resolver_picks_unique_best_witness :
    0 ∈ [0] ∧
      candPasses fuzzTokenSort (fun _ _ => (5 : ℚ)/100) [exCityBase] exCityInc 0 = true := by
  have h := (resolver_picks_unique_best fuzzTokenSort (fun _ _ => (5 : ℚ)/100)
    [exCityBase] exCityInc [0]).1 0 (by with_unfolding_all decide)
  exact ⟨h.1, h.2.1⟩

/-! ## Lemmas: one merge pass never shrinks the master -/

theorem merge_row_length (master : List Row) (i : Nat) (inc : Row) (src : String) :
    (merge_row master i inc src).length = master.length := by
  unfold merge_row
  exact List.length_set master i _

theorem stepGeo_master_length (fz : String → String → ℚ) (dist : Row → Row → ℚ)
    (query : Row → List Nat) (ds : String) (s : PassSt) (row : Row) :
    (stepGeo fz dist query ds s row).master.length = s.master.length := by
  unfold stepGeo
  split
  · rfl
  · split
    · simp [merge_row_length]
    · rfl

theorem stepNoGeo_master_length (fz : String → String → ℚ) (ds st : String)
    (s : PassSt) (row : Row) :
    (stepNoGeo fz ds st s row).master.length = s.master.length := by
  unfold stepNoGeo
  split
  · simp [merge_row_length]
  · rfl

theorem foldl_master_length {α : Type} (f : PassSt → α → PassSt)
    (hf : ∀ s a, (f s a).master.length = s.master.length) :
    ∀ (l : List α) (s : PassSt), (l.foldl f s).master.length = s.master.length := by
  intro l
  induction l with
  | nil => intro s; rfl
  | cons c cs ih => intro s; rw [List.foldl_cons, ih, hf]

theorem processState_master_length (fz : String → String → ℚ) (dist : Row → Row → ℚ)
    (query : Row → List Nat) (ds : String) (incoming : List Row)
    (s : PassSt) (st : String) :
    (processState fz dist query ds incoming s st).master.length = s.master.length := by
  unfold processState
  split
  · rfl
  · rw [foldl_master_length _ (stepNoGeo_master_length fz ds st),
        foldl_master_length _ (stepGeo_master_length fz dist query ds)]

/-- **C5**: one merge pass never loses master records: matched rows are
merged in place (length-preserving) and every unmatched row is appended,
so the final master length is exactly the starting length plus the number
of new records, hence never smaller. -/
theorem merge_pass_no_loss :
    ∀ (fz : String → String → ℚ) (dist : Row → Row → ℚ) (query : Row → List Nat)
      (ds : String) (master0 incoming : List Row) (samples0 : List SampleEntry),
      (merge_dataset fz dist query ds master0 incoming samples0).master.length =
        master0.length + (merge_dataset fz dist query ds master0 incoming samples0).newCount
      ∧ master0.length ≤
          (merge_dataset fz dist query ds master0 incoming samples0).master.length := by
  intro fz dist query ds master0 incoming samples0
  have hlen : ∀ (sts : List String),
      ((sts.foldl (processState fz dist query ds incoming)
          ⟨master0, [], 0, samples0⟩).master.length) = master0.length :=
    fun sts => foldl_master_length _
      (processState_master_length fz dist query ds incoming) sts _
  constructor
  · unfold merge_dataset
    simp only [List.length_append]
    rw [hlen]
  · unfold merge_dataset
    simp only [List.length_append]
    rw [hlen]
    exact Nat.le_add_right _ _

/-! ## Lemmas: the first-non-null field-fill policy -/

theorem fillField_keeps {s : String} (inc : Option String)
    (h : pyStrip s.data ≠ []) : fillField (some s) inc = some s := by
  unfold fillField
  cases inc with
  | none => rfl
  | some v => exact if_neg h

/-- **C6**: every populated descriptive field of a master row — one whose
value is present and does not strip to the empty string — survives any
merge unchanged, for all ten fill fields; incoming values are copied only
into null or blank cells. -/
theorem filled_fields_never_overwritten :
    ∀ (m inc : Row) (src : String) (s : String), pyStrip s.data ≠ [] →
      ((m.address = some s → (mergedRow m inc src).address = some s) ∧
       (m.pincode = some s → (mergedRow m inc src).pincode = some s) ∧
       (m.phone = some s → (mergedRow m inc src).phone = some s) ∧
       (m.email = some s → (mergedRow m inc src).email = some s) ∧
       (m.num_beds = some s → (mergedRow m inc src).num_beds = some s) ∧
       (m.abdm_enabled = some s → (mergedRow m inc src).abdm_enabled = some s) ∧
       (m.is_24x7 = some s → (mergedRow m inc src).is_24x7 = some s) ∧
       (m.facility_type = some s → (mergedRow m inc src).facility_type = some s) ∧
       (m.facility_subtype = some s → (mergedRow m inc src).facility_subtype = some s) ∧
       (m.ownership = some s → (mergedRow m inc src).ownership = some s)) := by
  intro m inc src s hs
  simp only [mergedRow]
  refine ⟨?_, ?_, ?_, ?_, ?_, ?_, ?_, ?_, ?_, ?_⟩ <;>
    (intro h; rw [h]; exact fillField_keeps _ hs)

/-- Witness for the no-overwrite policy: a fully-populated master row
keeps its address and ownership when merged with a row carrying different
values everywhere. -/
theorem filled_fields_never_overwritten_witness :
    (mergedRow exFilledBase exFillInc "NIN").address = some "12 Main Road" ∧
      (mergedRow exFilledBase exFillInc "NIN").ownership = some "Government" :=
  ⟨(filled_fields_never_overwritten exFilledBase exFillInc "NIN" "12 Main Road"
      (by with_unfolding_all decide)).1 rfl,
   (filled_fields_never_overwritten exFilledBase exFillInc "NIN" "Government"
      (by with_unfolding_all decide)).2.2.2.2.2.2.2.2.2 rfl⟩

/-! ## Lemmas: the sample-matches audit artifact -/

theorem fbms_samples (fz : String → String → ℚ) (dist : Row → Row → ℚ)
    (master : List Row) (row : Row) (cands : List Nat)
    (samples : List SampleEntry) (ds : String) :
    ∃ l, (find_best_match_s fz dist master row cands samples ds).2 = samples ++ l ∧
      ∀ e ∈ l, e.source = ds := by
  unfold find_best_match_s
  split
  · exact ⟨[], by simp, by simp⟩
  · split
    · split
      · rename_i i bs bd heq hlt
        refine ⟨[⟨row.facility_name, (getRow master i).facility_name, bs,
          round4 (bd.getD 0), row.state, ds⟩], rfl, ?_⟩
        intro e he
        simp only [List.mem_singleton] at he
        subst he
        rfl
      · exact ⟨[], by simp, by simp⟩
    · exact ⟨[], by simp, by simp⟩

theorem fbms_samples_cap (fz : String → String → ℚ) (dist : Row → Row → ℚ)
    (master : List Row) (row : Row) (cands : List Nat)
    (samples : List SampleEntry) (ds : String) (h : samples.length ≤ 200) :
    (find_best_match_s fz dist master row cands samples ds).2.length ≤ 200 := by
  unfold find_best_match_s
  split
  · exact h
  · split
    · split
      · rename_i hlt
        simp only [List.length_append, List.length_singleton]
        omega
      · exact h
    · exact h

theorem stepGeo_samples (fz : String → String → ℚ) (dist : Row → Row → ℚ)
    (query : Row → List Nat) (ds : String) (s : PassSt) (row : Row) :
    ∃ l, (stepGeo fz dist query ds s row).samples = s.samples ++ l ∧
      ∀ e ∈ l, e.source = ds := by
  unfold stepGeo
  split
  · exact ⟨[], by simp, by simp⟩
  · rcases hs : find_best_match_s fz dist s.master row (query row) s.samples ds with ⟨bi, samples'⟩
    obtain ⟨l, hl, htag⟩ := fbms_samples fz dist s.master row (query row) s.samples ds
    rw [hs] at hl
    cases bi with
    | some i => simp only [hs]; exact ⟨l, hl, htag⟩
    | none => simp only [hs]; exact ⟨l, hl, htag⟩

theorem stepGeo_samples_cap (fz : String → String → ℚ) (dist : Row → Row → ℚ)
    (query : Row → List Nat) (ds : String) (s : PassSt) (row : Row)
    (h : s.samples.length ≤ 200) :
    (stepGeo fz dist query ds s row).samples.length ≤ 200 := by
  unfold stepGeo
  split
  · exact h
  · rcases hs : find_best_match_s fz dist s.master row (query row) s.samples ds with ⟨bi, samples'⟩
    have hcap := fbms_samples_cap fz dist s.master row (query row) s.samples ds h
    rw [hs] at hcap
    cases bi with
    | some i => simpa only [hs] using hcap
    | none => simpa only [hs] using hcap

theorem stepNoGeo_samples (fz : String → String → ℚ) (ds st : String)
    (s : PassSt) (row : Row) :
    (stepNoGeo fz ds st s row).samples = s.samples := by
  unfold stepNoGeo
  split <;> rfl

theorem foldl_samples {α : Type} (ds : String) (f : PassSt → α → PassSt)
    (hf : ∀ s a, ∃ l, (f s a).samples = s.samples ++ l ∧ ∀ e ∈ l, e.source = ds) :
    ∀ (xs : List α) (s : PassSt),
      ∃ l, (xs.foldl f s).samples = s.samples ++ l ∧ ∀ e ∈ l, e.source = ds := by
  intro xs
  induction xs with
  | nil => intro s; exact ⟨[], by simp, by simp⟩
  | cons c cs ih =>
    intro s
    rw [List.foldl_cons]
    obtain ⟨l1, hl1, ht1⟩ := hf s c
    obtain ⟨l2, hl2, ht2⟩ := ih (f s c)
    refine ⟨l1 ++ l2, ?_, ?_⟩
    · rw [hl2, hl1, List.append_assoc]
    · intro e he
      rcases List.mem_append.mp he with h | h
      · exact ht1 e h
      · exact ht2 e h

theorem foldl_samples_cap {α : Type} (f : PassSt → α → PassSt)
    (hf : ∀ s a, s.samples.length ≤ 200 → (f s a).samples.length ≤ 200) :
    ∀ (xs : List α) (s : PassSt), s.samples.length ≤ 200 →
      (xs.foldl f s).samples.length ≤ 200 := by
  intro xs
  induction xs with
  | nil => intro s h; exact h
  | cons c cs ih =>
    intro s h
    rw [List.foldl_cons]
    exact ih (f s c) (hf s c h)

theorem processState_samples (fz : String → String → ℚ) (dist : Row → Row → ℚ)
    (query : Row → List Nat) (ds : String) (incoming : List Row)
    (s : PassSt) (st : String) :
    ∃ l, (processState fz dist query ds incoming s st).samples = s.samples ++ l ∧
      ∀ e ∈ l, e.source = ds := by
  unfold processState
  split
  · exact ⟨[], by simp, by simp⟩
  · obtain ⟨l1, hl1, ht1⟩ := foldl_samples ds (stepGeo fz dist query ds)
      (stepGeo_samples fz dist query ds) _ s
    obtain ⟨l2, hl2, ht2⟩ := foldl_samples ds (stepNoGeo fz ds st)
      (fun s' a => ⟨[], by rw [stepNoGeo_samples, List.append_nil], by simp⟩) _
      (List.foldl (stepGeo fz dist query ds) s _)
    refine ⟨l1 ++ l2, ?_, ?_⟩
    · rw [hl2, hl1, List.append_assoc]
    · intro e he
      rcases List.mem_append.mp he with h | h
      · exact ht1 e h
      · exact ht2 e h

theorem processState_samples_cap (fz : String → String → ℚ) (dist : Row → Row → ℚ)
    (query : Row → List Nat) (ds : String) (incoming : List Row)
    (s : PassSt) (st : String) (h : s.samples.length ≤ 200) :
    (processState fz dist query ds incoming s st).samples.length ≤ 200 := by
  unfold processState
  split
  · exact h
  · refine foldl_samples_cap _ (fun s' a h' => ?_) _ _
      (foldl_samples_cap _ (stepGeo_samples_cap fz dist query ds) _ s h)
    rw [stepNoGeo_samples]
    exact h'

/-- **C9 (amended)**: the sample-matches artifact never exceeds 200
entries (given at most 200 accumulated so far), grows only by entries
tagged with the current source that record an accepted geo match — but it
holds the *first* accepted geo matches of the run, not the
highest-confidence ones (see `sample_artifact_not_highest_confidence`). -/
theorem sample_artifact_bounded_and_tagged :
    ∀ (fz : String → String → ℚ) (dist : Row → Row → ℚ) (query : Row → List Nat)
      (ds : String) (master0 incoming : List Row) (samples0 : List SampleEntry),
      (samples0.length ≤ 200 →
        (merge_dataset fz dist query ds master0 incoming samples0).samples.length ≤ 200) ∧
      ∃ l, (merge_dataset fz dist query ds master0 incoming samples0).samples
            = samples0 ++ l ∧ ∀ e ∈ l, e.source = ds := by
  intro fz dist query ds master0 incoming samples0
  constructor
  · intro h0
    unfold merge_dataset
    exact foldl_samples_cap _
      (fun s st h => processState_samples_cap fz dist query ds incoming s st h) _ _ h0
  · unfold merge_dataset
    exact foldl_samples ds _
      (fun s st => processState_samples fz dist query ds incoming s st) _ _

/-- **C9 counterexample**: a merge pass whose single incoming row is an
*accepted* geo match with fuzzy score 100 — strictly higher-confidence
than every stored entry — leaves the artifact unchanged because 200
entries (score 95) were already accumulated by earlier passes of the run:
the artifact is the first 200 accepted matches, not the
highest-confidence ones. -/
theorem sample_artifact_not_highest_confidence :
    (merge_dataset exFzAB (fun _ _ => 0) (fun _ => [0]) "PHC" [exBaseA] [exRowB]
        (List.replicate 200 exSample95)).matched = 1 ∧
    (merge_dataset exFzAB (fun _ _ => 0) (fun _ => [0]) "PHC" [exBaseA] [exRowB]
        (List.replicate 200 exSample95)).samples = List.replicate 200 exSample95 ∧
    exFzAB exRowB.facility_name_clean exBaseA.facility_name_clean = 100 := by
  with_unfolding_all decide

/-- Witness for the bounded-and-tagged artifact: the small clear-match run
starts with an empty sample list and ends with at most 200 entries. -/
theorem sample_artifact_bounded_and_tagged_witness :
    (merge_dataset exFzAB (fun _ _ => 0) (fun _ => [0]) "PHC" [exBaseA] [exRowB]
        []).samples.length ≤ 200 :=
  (sample_artifact_bounded_and_tagged exFzAB (fun _ _ => 0) (fun _ => [0]) "PHC"
      [exBaseA] [exRowB] []).1 (by simp)

/-! ## Lemmas: validation and export -/

theorem rowCountIssue_last (n : Nat) :
    (rowCountIssue n).data.getLast? = some (Char.ofNat 33) := by
  unfold rowCountIssue
  rw [String.data_append, List.getLast?_append]
  have h : (" < NHA base 323460!" : String).data.getLast? = some (Char.ofNat 33) := by decide
  rw [h]
  rfl

theorem noSourceIssue_last (n : Nat) :
    (noSourceIssue n).data.getLast? = some (Char.ofNat 116) := by
  unfold noSourceIssue
  rw [String.data_append, List.getLast?_append]
  have h : (" rows have no source dataset" : String).data.getLast? = some (Char.ofNat 116) := by
    decide
  rw [h]
  rfl

theorem rowCountIssue_ne_noSourceIssue (n k : Nat) : rowCountIssue n ≠ noSourceIssue k := by
  intro h
  have hd : (rowCountIssue n).data.getLast? = (noSourceIssue k).data.getLast? := by rw [h]
  rw [rowCountIssue_last, noSourceIssue_last] at hd
  simp only [Option.some.injEq] at hd
  exact absurd hd (by decide)

/-- **C8 (amended)**: the validation stage reports its row-count issue
exactly when the final master row count is below the *hardcoded* expected
NHA base size 323460 — not the actual base dataset's count — and
validation issues never abort the pipeline: the exported table is the full
master, out-of-bounding-box rows included. -/
theorem validation_rowcount_hardcoded_and_nonfatal :
    ∀ m : List Row,
      (rowCountIssue m.length ∈ validate m ↔ m.length < 323460) ∧
      (validateThenExport m).2 = m := by
  intro m
  refine ⟨⟨?_, ?_⟩, rfl⟩
  · intro h
    unfold validate at h
    rcases List.mem_append.mp h with h | h
    · by_cases hc : m.length < 323460
      · exact hc
      · rw [if_neg hc] at h
        simp at h
    · split at h
      · simp only [List.mem_singleton] at h
        exact absurd h (rowCountIssue_ne_noSourceIssue _ _)
      · simp at h
  · intro h
    unfold validate
    apply List.mem_append.mpr
    left
    rw [if_pos h]
    exact List.mem_singleton_self _

/-- **C8 counterexample**: for a pipeline whose base dataset has a single
row, a final master with that same single row (final count ≥ base count)
still triggers the row-count issue, because the code compares against the
literal 323460 rather than the base dataset's row count. -/
theorem rowcount_check_not_relative_to_base :
    rowCountIssue 1 ∈ validate [exNhaRow] ∧ ¬ rowIssueSpec 1 1 := by
  constructor
  · with_unfolding_all decide
  · unfold rowIssueSpec
    omega

/-! ## Lemmas: the lexicographic token order and pipe splitting -/

theorem ltChars_asymm : ∀ (a b : List Char),
    ltChars a b = true → ltChars b a = true → False
  | [], [] => by simp [ltChars]
  | [], _ :: _ => by intro _ h2; simp [ltChars] at h2
  | _ :: _, [] => by intro h1 _; simp [ltChars] at h1
  | a :: as', b :: bs' => by
    intro h1 h2
    unfold ltChars at h1 h2
    rcases lt_trichotomy a b with hab | hab | hab
    · rw [if_neg (not_lt.mpr (le_of_lt hab)), if_pos hab] at h2
      exact absurd h2 (by simp)
    · subst hab
      rw [if_neg (lt_irrefl a), if_neg (lt_irrefl a)] at h1 h2
      exact ltChars_asymm as' bs' h1 h2
    · rw [if_neg (not_lt.mpr (le_of_lt hab)), if_pos hab] at h1
      exact absurd h1 (by simp)

theorem ltChars_trans : ∀ (a b c : List Char),
    ltChars a b = true → ltChars b c = true → ltChars a c = true
  | [], b, [] => by
    intro _ h2
    cases b <;> simp [ltChars] at h2
  | [], _, _ :: _ => by intro _ _; simp [ltChars]
  | _ :: _, [], _ => by intro h1 _; simp [ltChars] at h1
  | _ :: _, _ :: _, [] => by intro _ h2; simp [ltChars] at h2
  | a :: as', b :: bs', c :: cs' => by
    intro h1 h2
    unfold ltChars at h1 h2 ⊢
    rcases lt_trichotomy a b with hab | hab | hab
    · rcases lt_trichotomy b c with hbc | hbc | hbc
      · rw [if_pos (lt_trans hab hbc)]
      · subst hbc; rw [if_pos hab]
      · rw [if_neg (not_lt.mpr (le_of_lt hbc)), if_pos hbc] at h2
        exact absurd h2 (by simp)
    · subst hab
      rw [if_neg (lt_irrefl a), if_neg (lt_irrefl a)] at h1
      rcases lt_trichotomy a c with hac | hac | hac
      · rw [if_pos hac]
      · subst hac
        rw [if_neg (lt_irrefl a), if_neg (lt_irrefl a)] at h2 ⊢
        exact ltChars_trans as' bs' cs' h1 h2
      · rw [if_neg (not_lt.mpr (le_of_lt hac)), if_pos hac] at h2
        exact absurd h2 (by simp)
    · rw [if_neg (not_lt.mpr (le_of_lt hab)), if_pos hab] at h1
      exact absurd h1 (by simp)

theorem ltChars_conn : ∀ (a b : List Char),
    ltChars a b = false → ltChars b a = false → a = b
  | [], [] => by intro _ _; rfl
  | [], _ :: _ => by intro h1 _; simp [ltChars] at h1
  | _ :: _, [] => by intro _ h2; simp [ltChars] at h2
  | a :: as', b :: bs' => by
    intro h1 h2
    unfold ltChars at h1 h2
    rcases lt_trichotomy a b with hab | hab | hab
    · rw [if_pos hab] at h1
      exact absurd h1 (by simp)
    · subst hab
      rw [if_neg (lt_irrefl a), if_neg (lt_irrefl a)] at h1 h2
      rw [ltChars_conn as' bs' h1 h2]
    · rw [if_neg (not_lt.mpr (le_of_lt hab)), if_pos hab] at h2
      exact absurd h2 (by simp)

instance : IsTotal (List Char) (fun a b => leChars a b = true) := ⟨by
  intro a b
  unfold leChars
  by_cases h : ltChars b a = true
  · right
    simp only [Bool.not_eq_true']
    cases hab : ltChars a b with
    | false => rfl
    | true => exact absurd (ltChars_asymm a b hab h) id
  · left
    simp only [Bool.not_eq_true']
    exact Bool.not_eq_true _ ▸ h⟩

instance : IsTrans (List Char) (fun a b => leChars a b = true) := ⟨by
  intro a b c hab hbc
  unfold leChars at *
  simp only [Bool.not_eq_true'] at *
  by_contra hcon
  rw [Bool.not_eq_false] at hcon
  by_cases h1 : ltChars a b = true
  · have := ltChars_trans c a b hcon h1
    rw [hbc] at this
    exact absurd this (by simp)
  · have heq : a = b := ltChars_conn a b (Bool.not_eq_true _ ▸ h1) hab
    subst heq
    rw [hbc] at hcon
    exact absurd hcon (by simp)⟩

instance : IsAntisymm (List Char) (fun a b => leChars a b = true) := ⟨by
  intro a b hab hba
  unfold leChars at *
  simp only [Bool.not_eq_true'] at *
  exact ltChars_conn a b hba hab⟩

theorem splitPipe_cons (c : Char) (cs : List Char) :
    splitPipe (c :: cs) =
      match splitPipe cs with
      | [] => [[c]]
      | h :: t => if c = '|' then [] :: h :: t else (c :: h) :: t := rfl

theorem splitPipe_ne_nil : ∀ (l : List Char), splitPipe l ≠ []
  | [] => by simp [splitPipe]
  | c :: cs => by
    rw [splitPipe_cons]
    rcases h : splitPipe cs with _ | ⟨a, t⟩
    · exact absurd h (splitPipe_ne_nil cs)
    · by_cases hc : c = '|' <;> simp [hc]

theorem pipe_not_mem_splitPipe : ∀ (l : List Char), ∀ p ∈ splitPipe l, ('|' : Char) ∉ p
  | [] => by
    intro p hp
    simp only [splitPipe, List.mem_singleton] at hp
    subst hp
    simp
  | c :: cs => by
    intro p hp
    unfold splitPipe at hp
    rcases h : splitPipe cs with _ | ⟨a, t⟩
    · exact absurd h (splitPipe_ne_nil cs)
    · simp only [h] at hp
      by_cases hc : c = '|'
      · rw [if_pos hc] at hp
        rcases List.mem_cons.mp hp with rfl | hp'
        · simp
        · exact pipe_not_mem_splitPipe cs p (by rw [h]; exact hp')
      · rw [if_neg hc] at hp
        rcases List.mem_cons.mp hp with rfl | hp'
        · intro hmem
          rcases List.mem_cons.mp hmem with heq | hmem'
          · exact hc heq.symm
          · exact pipe_not_mem_splitPipe cs a
              (by rw [h]; exact List.mem_cons_self a t) hmem'
        · exact pipe_not_mem_splitPipe cs p
            (by rw [h]; exact List.mem_cons_of_mem a hp')

theorem splitPipe_no_pipe_single : ∀ (p : List Char), ('|' : Char) ∉ p → splitPipe p = [p]
  | [] => by intro _; rfl
  | c :: cs => by
    intro h
    have hc : c ≠ '|' := fun hcp => h (by rw [hcp]; exact List.mem_cons_self _ cs)
    rw [splitPipe_cons, splitPipe_no_pipe_single cs (fun hm => h (List.mem_cons_of_mem c hm))]
    simp [hc]

theorem splitPipe_append_pipe : ∀ (p rest : List Char), ('|' : Char) ∉ p →
    splitPipe (p ++ '|' :: rest) = p :: splitPipe rest
  | [], rest => by
    intro _
    simp only [List.nil_append]
    rw [splitPipe_cons]
    rcases hr : splitPipe rest with _ | ⟨a, t⟩
    · exact absurd hr (splitPipe_ne_nil rest)
    · simp
  | c :: p', rest => by
    intro h
    have hc : c ≠ '|' := fun hcp => h (by rw [hcp]; exact List.mem_cons_self _ p')
    simp only [List.cons_append]
    rw [splitPipe_cons, splitPipe_append_pipe p' rest (fun hm => h (List.mem_cons_of_mem c hm))]
    simp [hc]

theorem splitPipe_joinPipe : ∀ (ts : List (List Char)), ts ≠ [] →
    (∀ p ∈ ts, ('|' : Char) ∉ p) → splitPipe (joinPipe ts) = ts
  | [] => by intro h; exact absurd rfl h
  | [p] => by
    intro _ h
    have hj : joinPipe [p] = p := by simp [joinPipe]
    rw [hj]
    exact splitPipe_no_pipe_single p (h p (List.mem_singleton_self p))
  | p :: q :: ts => by
    intro _ h
    have hj : joinPipe (p :: q :: ts) = p ++ '|' :: joinPipe (q :: ts) := by
      simp [joinPipe, List.intersperse_cons₂]
    rw [hj, splitPipe_append_pipe p _ (h p (List.mem_cons_self p _))]
    rw [splitPipe_joinPipe (q :: ts) (by simp)
      (fun r hr => h r (List.mem_cons_of_mem p hr))]

/-! ## Lemmas: the specialties union -/

theorem mem_sortChars {l : List (List Char)} {x : List Char} :
    x ∈ sortChars l ↔ x ∈ l := by
  unfold sortChars
  exact List.mem_insertionSort _

theorem union_core_idem (ex ic : List (List Char))
    (hex : ∀ p ∈ ex, ('|' : Char) ∉ p) (hic : ∀ p ∈ ic, ('|' : Char) ∉ p) :
    sortChars (((splitPipe (joinPipe (sortChars
        (((ex ++ ic).dedup).filter (fun p => p ≠ [])))) ++ ic).dedup).filter
      (fun p => p ≠ []))
      = sortChars (((ex ++ ic).dedup).filter (fun p => p ≠ [])) := by
  set D := ((ex ++ ic).dedup).filter (fun p => p ≠ []) with hD
  have hDnodup : D.Nodup := (List.nodup_dedup _).filter _
  have hSperm : (sortChars D).Perm D := List.perm_insertionSort _ D
  have hDmem : ∀ x, x ∈ D ↔ (x ∈ ex ∨ x ∈ ic) ∧ x ≠ [] := by
    intro x
    rw [hD]
    simp [List.mem_filter, List.mem_dedup, List.mem_append]
  have hSnopipe : ∀ p ∈ sortChars D, ('|' : Char) ∉ p := by
    intro p hp
    rcases ((hDmem p).mp (hSperm.mem_iff.mp hp)).1 with h | h
    · exact hex p h
    · exact hic p h
  by_cases hS : sortChars D = []
  · rw [hS]
    have hDnil : D = [] := by
      have hp := hSperm
      rw [hS] at hp
      exact (List.Perm.nil_eq hp).symm
    have hall : ∀ x ∈ (ex ++ ic).dedup, x = [] := by
      intro x hx
      by_contra hne
      have hxD : x ∈ D := by
        rw [hD]
        exact List.mem_filter.mpr ⟨hx, by simpa using hne⟩
      rw [hDnil] at hxD
      simp at hxD
    have hD2nil : ((splitPipe (joinPipe ([] : List (List Char))) ++ ic).dedup).filter
        (fun p => p ≠ []) = [] := by
      rw [List.filter_eq_nil_iff]
      intro x hx
      have hx' := List.mem_dedup.mp hx
      rcases List.mem_append.mp hx' with h | h
      · simp only [joinPipe, List.intersperse_nil, List.flatten_nil] at h
        simp only [splitPipe, List.mem_singleton] at h
        simp [h]
      · have : x = [] := hall x (List.mem_dedup.mpr (List.mem_append.mpr (Or.inr h)))
        simp [this]
    rw [hD2nil]
    rfl
  · rw [splitPipe_joinPipe _ hS hSnopipe]
    set D2 := ((sortChars D ++ ic).dedup).filter (fun p => p ≠ []) with hD2
    have hD2nodup : D2.Nodup := (List.nodup_dedup _).filter _
    have hD2mem : ∀ x, x ∈ D2 ↔ x ∈ D := by
      intro x
      rw [hD2]
      simp only [List.mem_filter, List.mem_dedup, List.mem_append, ne_eq,
        decide_not, Bool.not_eq_true', decide_eq_false_iff_not]
      constructor
      · rintro ⟨h1 | h1, h2⟩
        · exact hSperm.mem_iff.mp h1
        · exact (hDmem x).mpr ⟨Or.inr h1, h2⟩
      · intro hx
        exact ⟨Or.inl (hSperm.mem_iff.mpr hx), ((hDmem x).mp hx).2⟩
    have hperm : D2.Perm D := (List.perm_ext_iff_of_nodup hD2nodup hDnodup).mpr hD2mem
    have hfinal : (sortChars D2).Perm (sortChars D) :=
      ((List.perm_insertionSort _ D2).trans hperm).trans hSperm.symm
    exact List.eq_of_perm_of_sorted hfinal
      (List.sorted_insertionSort _ D2) (List.sorted_insertionSort _ D)

theorem unionSpec_idem (mv : Option String) (iv : String) :
    unionSpec (some (unionSpec mv iv)) iv = unionSpec mv iv := by
  unfold unionSpec
  simp only [Option.getD_some]
  congr 1
  congr 1
  exact union_core_idem (splitPipe (mv.getD "").data) (splitPipe iv.data)
    (pipe_not_mem_splitPipe _) (pipe_not_mem_splitPipe _)

theorem mergedRow_specialties (m inc : Row) (src : String) :
    (mergedRow m inc src).specialties =
      match inc.specialties with
      | none => m.specialties
      | some iv => some (unionSpec m.specialties iv) := rfl

theorem specMembers_mono (m inc : Row) (src : String) :
    ∀ x ∈ specMembers m.specialties, x ∈ specMembers (mergedRow m inc src).specialties := by
  intro x hx
  rw [mergedRow_specialties]
  cases hs : inc.specialties with
  | none => exact hx
  | some iv =>
    unfold specMembers at hx ⊢
    simp only [Option.getD_some]
    rw [List.mem_filter] at hx
    obtain ⟨hmem, hne⟩ := hx
    set D := ((splitPipe (m.specialties.getD "").data ++ splitPipe iv.data).dedup).filter
      (fun p => p ≠ []) with hD
    have hxD : x ∈ D := by
      rw [hD]
      exact List.mem_filter.mpr
        ⟨List.mem_dedup.mpr (List.mem_append.mpr (Or.inl hmem)), hne⟩
    have hSperm : (sortChars D).Perm D := List.perm_insertionSort _ D
    have hS : sortChars D ≠ [] := by
      intro h0
      have hp := hSperm
      rw [h0] at hp
      rw [(List.Perm.nil_eq hp).symm] at hxD
      simp at hxD
    have hSnopipe : ∀ p ∈ sortChars D, ('|' : Char) ∉ p := by
      intro p hp
      have hpD := hSperm.mem_iff.mp hp
      rw [hD] at hpD
      have := (List.mem_filter.mp hpD).1
      rcases List.mem_append.mp (List.mem_dedup.mp this) with h | h
      · exact pipe_not_mem_splitPipe _ p h
      · exact pipe_not_mem_splitPipe _ p h
    have hdata : (unionSpec m.specialties iv).data = joinPipe (sortChars D) := rfl
    rw [hdata, splitPipe_joinPipe _ hS hSnopipe]
    exact List.mem_filter.mpr ⟨hSperm.mem_iff.mpr hxD, hne⟩

theorem orIndicators_keeps_one : ∀ (mv iv : List (Option ℚ)) (k : Nat),
    mv[k]? = some (some 1) → (orIndicators mv iv)[k]? = some (some 1)
  | [], _, k => by simp [orIndicators]
  | m :: ms, [], k => by intro h; simpa [orIndicators] using h
  | m :: ms, i :: is', 0 => by
    intro h
    simp only [List.getElem?_cons_zero, Option.some.injEq] at h
    simp only [orIndicators, List.getElem?_cons_zero, Option.some.injEq]
    split
    · rfl
    · exact h
  | m :: ms, i :: is', k + 1 => by
    intro h
    simp only [List.getElem?_cons_succ] at h
    simpa [orIndicators, List.getElem?_cons_succ] using
      orIndicators_keeps_one ms is' k h

/-- **C7**: merging is monotone on the specialties set (every non-empty
component of the master's specialties survives), the union is idempotent
(merging the same incoming row twice leaves the specialties unchanged
after the first merge), and a per-specialty indicator that is 1 is never
reset — the OR-merge can only set indicators to 1. -/
theorem specialties_and_indicators_monotone :
    ∀ (m inc : Row) (src : String),
      (∀ x ∈ specMembers m.specialties,
        x ∈ specMembers (mergedRow m inc src).specialties) ∧
      ((mergedRow (mergedRow m inc src) inc src).specialties
          = (mergedRow m inc src).specialties) ∧
      (∀ k : Nat, m.indicators[k]? = some (some 1) →
        (mergedRow m inc src).indicators[k]? = some (some 1)) := by
  intro m inc src
  refine ⟨specMembers_mono m inc src, ?_, fun k h => ?_⟩
  · rw [mergedRow_specialties, mergedRow_specialties]
    cases hs : inc.specialties with
    | none => rfl
    | some iv => exact congrArg some (unionSpec_idem m.specialties iv)
  · rw [show (mergedRow m inc src).indicators = orIndicators m.indicators inc.indicators
      from rfl]
    exact orIndicators_keeps_one m.indicators inc.indicators k h

/-- Witness for specialties/indicator monotonicity: the populated master's
`CARDIOLOGY` component survives a merge that unions in different
specialties, and its first indicator (1) stays 1. -/
theorem specialties_and_indicators_monotone_witness :
    "CARDIOLOGY".data ∈ specMembers (mergedRow exFilledBase exFillInc "NIN").specialties ∧
      (mergedRow exFilledBase exFillInc "NIN").indicators[0]? = some (some 1) := by
  have h := specialties_and_indicators_monotone exFilledBase exFillInc "NIN"
  exact ⟨h.1 "CARDIOLOGY".data (by with_unfolding_all decide),
         h.2.2 0 (by with_unfolding_all decide)⟩

/-! ## Lemmas: whitespace collapsing -/

theorem mem_intersperse {α : Type} {sep : α} :
    ∀ {ts : List α} {x : α}, x ∈ ts.intersperse sep → x ∈ ts ∨ x = sep
  | [], x => by intro h; simp at h
  | [t], x => by
    intro h
    simp only [List.intersperse_single, List.mem_singleton] at h
    exact Or.inl (h ▸ List.mem_singleton_self t)
  | t :: t' :: ts, x => by
    intro h
    rw [List.intersperse_cons₂] at h
    rcases List.mem_cons.mp h with rfl | h'
    · exact Or.inl (List.mem_cons_self _ _)
    · rcases List.mem_cons.mp h' with rfl | h''
      · exact Or.inr rfl
      · rcases mem_intersperse h'' with hx | hx
        · exact Or.inl (List.mem_cons_of_mem t hx)
        · exact Or.inr hx

theorem splitWS_tokens : ∀ (l : List Char), ∀ t ∈ splitWS l,
    t ≠ [] ∧ ∀ c ∈ t, isPySpace c = false ∧ c ∈ l := by
  intro l
  induction l with
  | nil => intro t ht; simp [splitWS, List.splitOnP_nil] at ht
  | cons x xs ih =>
    intro t ht
    unfold splitWS at ht
    rw [List.splitOnP_cons] at ht
    by_cases hx : isPySpace x = true
    · rw [if_pos hx] at ht
      rw [List.filter_cons_of_neg (by simp)] at ht
      obtain ⟨hne, hc⟩ := ih t ht
      exact ⟨hne, fun c hcm => ⟨(hc c hcm).1, List.mem_cons_of_mem x (hc c hcm).2⟩⟩
    · rw [if_neg hx] at ht
      rcases hsp : xs.splitOnP isPySpace with _ | ⟨h0, rest⟩
      · exact absurd hsp (List.splitOnP_ne_nil _ xs)
      · rw [hsp, List.modifyHead_cons] at ht
        rw [List.filter_cons_of_pos (by simp)] at ht
        rcases List.mem_cons.mp ht with rfl | ht'
        · refine ⟨List.cons_ne_nil x h0, ?_⟩
          intro c hcm
          rcases List.mem_cons.mp hcm with rfl | hcm'
          · exact ⟨Bool.not_eq_true _ ▸ hx, List.mem_cons_self c xs⟩
          · by_cases h0nil : h0 = []
            · subst h0nil; simp at hcm'
            · have hmem : h0 ∈ splitWS xs := by
                unfold splitWS
                rw [hsp]
                exact List.mem_filter.mpr ⟨List.mem_cons_self h0 rest, by simpa using h0nil⟩
              obtain ⟨-, hc⟩ := ih h0 hmem
              exact ⟨(hc c hcm').1, List.mem_cons_of_mem x (hc c hcm').2⟩
        · have hmem : t ∈ splitWS xs := by
            unfold splitWS
            rw [hsp]
            have := List.mem_filter.mp ht'
            exact List.mem_filter.mpr ⟨List.mem_cons_of_mem h0 this.1, this.2⟩
          obtain ⟨hne, hc⟩ := ih t hmem
          exact ⟨hne, fun c hcm => ⟨(hc c hcm).1, List.mem_cons_of_mem x (hc c hcm).2⟩⟩

theorem joinSpace_cons_cons (t q : List Char) (ts : List (List Char)) :
    joinSpace (t :: q :: ts) = t ++ ' ' :: joinSpace (q :: ts) := by
  unfold joinSpace
  rw [List.intersperse_cons₂]
  rfl

theorem splitWS_joinSpace : ∀ (ts : List (List Char)),
    (∀ t ∈ ts, t ≠ [] ∧ ∀ c ∈ t, isPySpace c = false) →
    splitWS (joinSpace ts) = ts
  | [] => by intro _; rfl
  | [t] => by
    intro h
    have hj : joinSpace [t] = t := by simp [joinSpace]
    rw [hj]
    unfold splitWS
    have hsingle : t.splitOnP isPySpace = [t] :=
      List.splitOnP_eq_single _ t (fun c hc => by
        simp only [Bool.not_eq_true]
        exact ((h t (List.mem_singleton_self t)).2 c hc))
    rw [hsingle, List.filter_cons_of_pos (by simp [(h t (List.mem_singleton_self t)).1])]
    rfl
  | t :: q :: ts => by
    intro h
    rw [joinSpace_cons_cons]
    unfold splitWS
    have hfirst : (t ++ ' ' :: joinSpace (q :: ts)).splitOnP isPySpace
        = t :: (joinSpace (q :: ts)).splitOnP isPySpace :=
      List.splitOnP_first _ t (fun c hc => by
        simp only [Bool.not_eq_true]
        exact ((h t (List.mem_cons_self t _)).2 c hc)) ' ' (by decide) _
    rw [hfirst,
      List.filter_cons_of_pos (by simp [(h t (List.mem_cons_self t _)).1])]
    have hrec := splitWS_joinSpace (q :: ts) (fun r hr => h r (List.mem_cons_of_mem t hr))
    unfold splitWS at hrec
    rw [hrec]

theorem collapseWS_chars {l : List Char} :
    ∀ c ∈ collapseWS l, (c ∈ l ∧ isPySpace c = false) ∨ c = ' ' := by
  intro c hc
  unfold collapseWS joinSpace at hc
  rw [List.mem_flatten] at hc
  obtain ⟨t, ht, hct⟩ := hc
  rcases mem_intersperse ht with ht' | ht'
  · obtain ⟨-, hprops⟩ := splitWS_tokens l t ht'
    exact Or.inl ⟨(hprops c hct).2, (hprops c hct).1⟩
  · subst ht'
    simp only [List.mem_singleton] at hct
    exact Or.inr hct

theorem collapseWS_idem (l : List Char) : collapseWS (collapseWS l) = collapseWS l := by
  show joinSpace (splitWS (joinSpace (splitWS l))) = collapseWS l
  rw [splitWS_joinSpace (splitWS l)
    (fun t ht => ⟨(splitWS_tokens l t ht).1,
      fun c hc => ((splitWS_tokens l t ht).2 c hc).1⟩)]
  rfl

theorem joinSpace_append_single : ∀ (xs : List (List Char)) (y : List Char), xs ≠ [] →
    joinSpace (xs ++ [y]) = joinSpace xs ++ ' ' :: y
  | [], y => by intro h; exact absurd rfl h
  | [t], y => by
    intro _
    rw [show ([t] ++ [y]) = t :: [y] ++ [] from rfl]
    simp only [List.append_nil]
    rw [joinSpace_cons_cons]
    simp [joinSpace]
  | t :: q :: ts, y => by
    intro _
    have h1 : (t :: q :: ts) ++ [y] = t :: q :: (ts ++ [y]) := rfl
    rw [h1, joinSpace_cons_cons]
    have h2 : q :: (ts ++ [y]) = (q :: ts) ++ [y] := rfl
    rw [h2, joinSpace_append_single (q :: ts) y (by simp), joinSpace_cons_cons]
    simp

theorem reverse_joinSpace : ∀ (ts : List (List Char)),
    (joinSpace ts).reverse = joinSpace ((ts.reverse).map List.reverse)
  | [] => rfl
  | [t] => by simp [joinSpace]
  | t :: q :: ts => by
    rw [joinSpace_cons_cons]
    have h1 : (t ++ ' ' :: joinSpace (q :: ts)).reverse
        = (joinSpace (q :: ts)).reverse ++ ' ' :: t.reverse := by
      rw [List.reverse_append, List.reverse_cons]
      simp
    rw [h1, reverse_joinSpace (q :: ts)]
    have h2 : (t :: q :: ts).reverse.map List.reverse
        = ((q :: ts).reverse.map List.reverse) ++ [t.reverse] := by simp
    rw [h2, joinSpace_append_single _ t.reverse (by simp)]

/-! ## Lemmas: `clean_facility_name` is idempotent away from noise -/

theorem dropWhile_joinSpace (ts : List (List Char))
    (h : ∀ t ∈ ts, t ≠ [] ∧ ∀ c ∈ t, isPySpace c = false) :
    (joinSpace ts).dropWhile isPySpace = joinSpace ts := by
  cases ts with
  | nil => rfl
  | cons t ts' =>
    obtain ⟨hne, hchars⟩ := h t (List.mem_cons_self t ts')
    cases t with
    | nil => exact absurd rfl hne
    | cons c t'' =>
      have hrest : ∃ rest, joinSpace ((c :: t'') :: ts') = c :: rest := by
        cases ts' with
        | nil => exact ⟨t'', by simp [joinSpace]⟩
        | cons q ts'' =>
          exact ⟨t'' ++ ' ' :: joinSpace (q :: ts''), by rw [joinSpace_cons_cons]; rfl⟩
      obtain ⟨rest, hrw⟩ := hrest
      rw [hrw, List.dropWhile_cons_of_neg]
      simp [hchars c (List.mem_cons_self c t'')]

theorem pyStrip_joinSpace (ts : List (List Char))
    (h : ∀ t ∈ ts, t ≠ [] ∧ ∀ c ∈ t, isPySpace c = false) :
    pyStrip (joinSpace ts) = joinSpace ts := by
  have hrev : ∀ t ∈ ts.reverse.map List.reverse,
      t ≠ [] ∧ ∀ c ∈ t, isPySpace c = false := by
    intro t ht
    simp only [List.mem_map, List.mem_reverse] at ht
    obtain ⟨t0, ht0, rfl⟩ := ht
    obtain ⟨hne, hch⟩ := h t0 ht0
    exact ⟨by simpa using hne, fun c hc => hch c (List.mem_reverse.mp hc)⟩
  unfold pyStrip
  rw [dropWhile_joinSpace ts h, reverse_joinSpace ts, dropWhile_joinSpace _ hrev,
    ← reverse_joinSpace ts, List.reverse_reverse]

theorem map_id_of {f : Char → Char} : ∀ (l : List Char), (∀ c ∈ l, f c = c) → l.map f = l
  | [] => by intro _; rfl
  | c :: cs => by
    intro h
    rw [List.map_cons, h c (List.mem_cons_self c cs),
      map_id_of cs (fun d hd => h d (List.mem_cons_of_mem c hd))]

theorem upChar_id_of {c : Char} (h : isKeepChar c = true ∨ c = ' ') : upChar c = c := by
  unfold upChar
  rw [if_neg]
  intro hab
  simp only [Bool.and_eq_true, decide_eq_true_eq] at hab
  rcases h with h | h
  · unfold isKeepChar at h
    simp only [Bool.or_eq_true, Bool.and_eq_true, decide_eq_true_eq] at h
    rcases h with ⟨-, h2⟩ | ⟨-, h2⟩
    · exact absurd (le_trans hab.1 h2) (by decide)
    · exact absurd (le_trans hab.1 h2) (by decide)
  · subst h
    exact absurd hab.1 (by decide)

theorem keepFilter_id_of {c : Char} (h : isKeepChar c = true ∨ c = ' ') :
    (if isKeepChar c || isPySpace c then c else ' ') = c := by
  rcases h with h | h
  · rw [if_pos (by simp [h])]
  · subst h
    rw [if_pos (by decide)]

theorem replAll_not_contains (p : List Char) : ∀ (l : List Char),
    containsSeq p l = false → replAll p l = l
  | [] => by intro _; simp [replAll]
  | c :: rest => by
    intro h
    unfold containsSeq at h
    rw [Bool.or_eq_false_iff] at h
    unfold replAll
    rw [dif_neg]
    · rw [replAll_not_contains p rest h.2]
    · rintro ⟨-, hpre⟩
      rw [h.1] at hpre
      exact absurd hpre (by simp)

theorem replAll_subset (p : List Char) : ∀ (l : List Char), ∀ x ∈ replAll p l, x ∈ l
  | [] => by intro x hx; simp [replAll] at hx
  | c :: rest => by
    intro x hx
    unfold replAll at hx
    split at hx
    · exact List.drop_subset _ _ (replAll_subset p ((c :: rest).drop p.length) x hx)
    · rcases List.mem_cons.mp hx with rfl | hx'
      · exact List.mem_cons_self x rest
      · exact List.mem_cons_of_mem c (replAll_subset p rest x hx')
termination_by l => l.length
decreasing_by
  all_goals simp only [List.length_drop, List.length_cons]
  all_goals try omega
  all_goals
    (rename_i hcond
     have hlen : 1 ≤ p.length := by
       cases p with
       | nil => exact absurd rfl hcond.1
       | cons y ys => simp
     omega)

theorem noiseFold_subset : ∀ (ps : List (List Char)) (l : List Char),
    ∀ x ∈ ps.foldl (fun acc q => replAll q acc) l, x ∈ l
  | [], l => by intro x hx; simpa using hx
  | p :: ps, l => by
    intro x hx
    rw [List.foldl_cons] at hx
    exact replAll_subset p l x (noiseFold_subset ps (replAll p l) x hx)

theorem noiseFold_id (ps : List (List Char)) (l : List Char)
    (h : ∀ p ∈ ps, containsSeq p l = false) :
    ps.foldl (fun acc q => replAll q acc) l = l := by
  induction ps with
  | nil => rfl
  | cons p ps ih =>
    rw [List.foldl_cons, replAll_not_contains p l (h p (List.mem_cons_self p ps))]
    exact ih (fun q hq => h q (List.mem_cons_of_mem p hq))

theorem cleanChars_eq (u : List Char → List Char) (s : List Char) :
    cleanChars u s = collapseWS (NOISE_TOKENS.foldl (fun acc q => replAll q acc)
      (collapseWS ((u (pyStrip (s.map upChar))).map
        (fun c => if isKeepChar c || isPySpace c then c else ' ')))) := rfl

theorem cleanChars_chars (u : List Char → List Char) (s : List Char) :
    ∀ c ∈ cleanChars u s, isKeepChar c = true ∨ c = ' ' := by
  intro c hc
  rw [cleanChars_eq] at hc
  rcases collapseWS_chars c hc with ⟨hin5, -⟩ | hsp
  · have hin4 := noiseFold_subset NOISE_TOKENS _ c hin5
    rcases collapseWS_chars c hin4 with ⟨hin3, hns3⟩ | hsp4
    · rw [List.mem_map] at hin3
      obtain ⟨d, -, hfd⟩ := hin3
      by_cases hk : (isKeepChar d || isPySpace d) = true
      · rw [if_pos hk] at hfd
        subst hfd
        simp only [Bool.or_eq_true] at hk
        rcases hk with h | h
        · exact Or.inl h
        · rw [h] at hns3
          exact absurd hns3 (by simp)
      · rw [if_neg hk] at hfd
        exact Or.inr hfd.symm
    · exact Or.inr hsp4
  · exact Or.inr hsp

theorem cleanChars_fixed (u : List Char → List Char)
    (hu : ∀ t : List Char, (∀ c ∈ t, isKeepChar c = true ∨ c = ' ') → u t = t)
    (r : List Char) (hcol : collapseWS r = r)
    (hchars : ∀ c ∈ r, isKeepChar c = true ∨ c = ' ')
    (hn : ∀ p ∈ NOISE_TOKENS, containsSeq p r = false) :
    cleanChars u r = r := by
  have hmap1 : r.map upChar = r := map_id_of r (fun c hc => upChar_id_of (hchars c hc))
  have hts : ∀ t ∈ splitWS r, t ≠ [] ∧ ∀ c ∈ t, isPySpace c = false :=
    fun t ht => ⟨(splitWS_tokens r t ht).1, fun c hc => ((splitWS_tokens r t ht).2 c hc).1⟩
  have hstrip : pyStrip r = r := by
    calc pyStrip r = pyStrip (collapseWS r) := by rw [hcol]
      _ = pyStrip (joinSpace (splitWS r)) := rfl
      _ = joinSpace (splitWS r) := pyStrip_joinSpace _ hts
      _ = collapseWS r := rfl
      _ = r := hcol
  have hu' : u r = r := hu r hchars
  have hmap2 : r.map (fun c => if isKeepChar c || isPySpace c then c else ' ') = r :=
    map_id_of r (fun c hc => keepFilter_id_of (hchars c hc))
  have hfold : NOISE_TOKENS.foldl (fun acc q => replAll q acc) r = r := noiseFold_id _ r hn
  rw [cleanChars_eq, hmap1, hstrip, hu', hmap2, hcol, hfold, hcol]

theorem cleanChars_idem (u : List Char → List Char)
    (hu : ∀ t : List Char, (∀ c ∈ t, isKeepChar c = true ∨ c = ' ') → u t = t)
    (l : List Char)
    (hn : ∀ p ∈ NOISE_TOKENS, containsSeq p (cleanChars u l) = false) :
    cleanChars u (cleanChars u l) = cleanChars u l := by
  apply cleanChars_fixed u hu
  · rw [cleanChars_eq]
    exact collapseWS_idem _
  · exact cleanChars_chars u l
  · exact hn

/-- **C10 (amended)**: facility-name cleaning is idempotent on every input
whose cleaned form contains none of the noise substrings `"PVT"`, `"LTD"`,
`"LIMITED"`, `"PRIVATE"`, `"A UNIT OF"` (`u` is the external `unidecode`,
assumed — as documented — to be the identity on ASCII upper/digit/space
strings). Unconditional idempotence is false: removing noise substrings
can splice new ones together, see `clean_name_not_idempotent`. -/
theorem clean_name_conditionally_idempotent :
    ∀ (u : List Char → List Char),
      (∀ t : List Char, (∀ c ∈ t, isKeepChar c = true ∨ c = ' ') → u t = t) →
      ∀ s : String,
        (∀ p ∈ NOISE_TOKENS, containsSeq p (clean_facility_name u s).data = false) →
        clean_facility_name u (clean_facility_name u s) = clean_facility_name u s := by
  intro u hu s hn
  exact congrArg String.mk (cleanChars_idem u hu s.data hn)

/-- **C10 counterexample**: cleaning is not idempotent. Removing the
leftmost `"PVT"` from `"PPVTVT"` yields `"PVT"`, which a second cleaning
erases: `clean("PPVTVT") = "PVT"` but `clean(clean("PPVTVT")) = ""`. -/
theorem clean_name_not_idempotent :
    clean_facility_name id (clean_facility_name id "PPVTVT")
      ≠ clean_facility_name id "PPVTVT" := by
  with_unfolding_all decide

/-- Witness for conditional idempotence: `"ABC HOSPITAL"` cleans to
itself, is noise-free, and re-cleaning is the identity. -/
theorem clean_name_conditionally_idempotent_witness :
    clean_facility_name id (clean_facility_name id "ABC HOSPITAL")
      = clean_facility_name id "ABC HOSPITAL" :=
  clean_name_conditionally_idempotent id (fun _ _ => rfl) "ABC HOSPITAL"
    (by with_unfolding_all decide)

end MasterMerge
